import Mathlib

/-!
Verification of the SHARKFin simulation core (`sharkfin/population.py`,
`sharkfin/simulation.py`, `sharkfin/markets/__init__.py`).

Numeric values are embedded as rationals (`ℚ`); numpy per-sub-agent vectors
are embedded as `List ℚ` with componentwise operations (`List.zipWith`,
`List.map`), mirroring numpy broadcasting on equal-length arrays.

External capabilities that the core treats as opaque (the HARK policy
functions `SequentialShareFuncAdj`, the one-period `agent.simulate` call,
the random number generator, and the market-clearing backend) are embedded
as explicit function parameters, so every theorem quantifies over them.
-/

namespace SharkFin

/-! ## List helper lemmas -/

/-- Every element of `zipWith f l1 l2` is `f a b` for some members of the lists. -/
theorem exists_of_mem_zipWith {α β γ : Type} {f : α → β → γ} {l1 : List α} {l2 : List β}
    {c : γ} (h : c ∈ List.zipWith f l1 l2) : ∃ a ∈ l1, ∃ b ∈ l2, c = f a b := by
  induction l1 generalizing l2 with
  | nil => simp [List.zipWith] at h
  | cons x xs ih =>
    cases l2 with
    | nil => simp [List.zipWith] at h
    | cons y ys =>
      simp only [List.zipWith, List.mem_cons] at h
      rcases h with h | h
      · exact ⟨x, List.mem_cons_self _ _, y, List.mem_cons_self _ _, h⟩
      · rcases ih h with ⟨a, ha, b, hb, rfl⟩
        exact ⟨a, List.mem_cons_of_mem _ ha, b, List.mem_cons_of_mem _ hb, rfl⟩

/-- Fusing a `zipWith` whose second argument is itself a `zipWith` into `zipWith3`. -/
theorem zipWith_zipWith_eq_zipWith3 {α β γ δ ε : Type} (f : α → δ → ε) (g : β → γ → δ)
    (l1 : List α) (l2 : List β) (l3 : List γ) :
    List.zipWith f l1 (List.zipWith g l2 l3)
      = List.zipWith3 (fun a b c => f a (g b c)) l1 l2 l3 := by
  induction l1 generalizing l2 l3 with
  | nil => simp [List.zipWith3]
  | cons x xs ih =>
    cases l2 with
    | nil => simp [List.zipWith3]
    | cons y ys =>
      cases l3 with
      | nil => simp [List.zipWith3]
      | cons z zs => simp [List.zipWith3, List.zipWith, ih]

/-- A `zipWith` is the `map` of the paired function over the `zip`. -/
theorem zipWith_eq_map_zip {α β γ : Type} (f : α → β → γ) (l1 : List α) (l2 : List β) :
    List.zipWith f l1 l2 = (l1.zip l2).map (fun p => f p.1 p.2) := by
  induction l1 generalizing l2 with
  | nil => simp
  | cons x xs ih =>
    cases l2 with
    | nil => simp
    | cons y ys => simp [List.zip_cons_cons, List.zipWith, ih]

/-! ## Agent data model

One HARK agent record as used by `sharkfin.population.AgentPopulation`:
`shares`, `state_now["aNrm"]`, `state_now["aLvl"]`, `state_now["pLvl"]` are
parallel numpy vectors (one entry per simulated sub-agent); `RiskyAvg` and
`RiskyStd` are the agent's risky-return belief parameters. -/

structure SharkAgent where
  shares : List ℚ
  aNrm : List ℚ
  aLvl : List ℚ
  pLvl : List ℚ
  riskyAvg : ℚ
  riskyStd : ℚ
deriving DecidableEq, Repr

/-! ## `AgentPopulation.update_agent_wealth_capital_gains`
     (src/sharkfin/population.py, lines 486-534) -/

/-- The per-agent vector `delta_aNrm` computed in
`update_agent_wealth_capital_gains`:
`(new_raw - old_raw + dividends) / (dollars_per_hark_money_unit * pLvl)`
where `old_share_price = new_share_price / (1 + pror)`,
`old_raw = shares * old_share_price`, `new_raw = shares * new_share_price`,
`dividends = shares * dividend`. -/
def capitalGainsDelta (dphm newSharePrice pror dividend : ℚ) (a : SharkAgent) : List ℚ :=
  let oldSharePrice := newSharePrice / (1 + pror)
  List.zipWith
    (fun s p => (s * newSharePrice - s * oldSharePrice + s * dividend) / (dphm * p))
    a.shares a.pLvl

/-- The value of `agent.state_now["aNrm"] + delta_aNrm`, before the
negative-assets clamp is considered. -/
def preClampANrm (dphm newSharePrice pror dividend : ℚ) (a : SharkAgent) : List ℚ :=
  List.zipWith (· + ·) a.aNrm (capitalGainsDelta dphm newSharePrice pror dividend a)

/-- Componentwise `aNrm[aNrm < 0] = 0.0`. -/
def clampNegToZero (l : List ℚ) : List ℚ :=
  l.map (fun x => if x < 0 then 0 else x)

/-- Componentwise `shares[aNrm == 0] = 0` (mask taken on the clamped `aNrm`). -/
def zeroSharesAtZeroANrm (aNrm2 shares : List ℚ) : List ℚ :=
  List.zipWith (fun x s => if x = 0 then (0 : ℚ) else s) aNrm2 shares

/-- The tail of the loop body of `update_agent_wealth_capital_gains` once the
new `aNrm` increment `delta` is known: add it to `aNrm`, run the negative-assets
clamp branch if any component went negative (which also zeroes shares at the
zeroed positions), then recompute `aLvl = aNrm * pLvl`. -/
def applyDeltaANrm (a : SharkAgent) (delta : List ℚ) : SharkAgent :=
  if (List.zipWith (· + ·) a.aNrm delta).any (fun x => decide (x < 0)) then
    { a with
      aNrm := clampNegToZero (List.zipWith (· + ·) a.aNrm delta)
      shares := zeroSharesAtZeroANrm (clampNegToZero (List.zipWith (· + ·) a.aNrm delta)) a.shares
      aLvl := List.zipWith (· * ·) (clampNegToZero (List.zipWith (· + ·) a.aNrm delta)) a.pLvl }
  else
    { a with
      aNrm := List.zipWith (· + ·) a.aNrm delta
      aLvl := List.zipWith (· * ·) (List.zipWith (· + ·) a.aNrm delta) a.pLvl }

/-- Body of the `for agent in self.agents` loop of
`AgentPopulation.update_agent_wealth_capital_gains`, acting on one agent. -/
def update_agent_wealth_capital_gains (dphm newSharePrice pror dividend : ℚ)
    (a : SharkAgent) : SharkAgent :=
  applyDeltaANrm a (capitalGainsDelta dphm newSharePrice pror dividend a)

/-- The full population method: the loop body applied to every agent of
`self.agents` in order. -/
def updatePopulationWealthCapitalGains (dphm newSharePrice pror dividend : ℚ)
    (agents : List SharkAgent) : List SharkAgent :=
  agents.map (update_agent_wealth_capital_gains dphm newSharePrice pror dividend)

/-- After `applyDeltaANrm` every component of `aNrm` is nonnegative. -/
theorem applyDeltaANrm_aNrm_nonneg (a : SharkAgent) (delta : List ℚ) :
    ∀ x ∈ (applyDeltaANrm a delta).aNrm, 0 ≤ x := by
  intro x hx
  by_cases hc : (List.zipWith (· + ·) a.aNrm delta).any (fun x => decide (x < 0)) = true
  · simp only [applyDeltaANrm, hc, if_true] at hx
    rcases List.mem_map.1 hx with ⟨y, _, rfl⟩
    split
    · exact le_refl 0
    · next h => exact le_of_not_lt h
  · simp only [applyDeltaANrm, hc, if_false] at hx
    have h' := List.any_eq_false.1 (eq_false_of_ne_true hc)
    have := h' x hx
    exact le_of_not_lt (by simpa using this)

/-- After `update_agent_wealth_capital_gains`, shares stay nonnegative if they
were nonnegative on entry. -/
theorem applyDeltaANrm_shares_nonneg (a : SharkAgent) (delta : List ℚ)
    (hsh : ∀ x ∈ a.shares, 0 ≤ x) :
    ∀ x ∈ (applyDeltaANrm a delta).shares, 0 ≤ x := by
  intro x hx
  by_cases hc : (List.zipWith (· + ·) a.aNrm delta).any (fun x => decide (x < 0)) = true
  · simp only [applyDeltaANrm, hc, if_true] at hx
    rcases exists_of_mem_zipWith hx with ⟨u, _, s, hs, rfl⟩
    split
    · exact le_refl 0
    · exact hsh s hs
  · simp only [applyDeltaANrm, hc, if_false] at hx
    exact hsh x hx

/-- When some component of `aNrm + delta_aNrm` is negative, the update takes the
clamp branch: negatives floored to `0`, shares zeroed where the clamped `aNrm`
is `0`, and `aLvl` recomputed. -/
theorem update_clamped_eq (dphm newSharePrice pror dividend : ℚ) (a : SharkAgent)
    (h : (preClampANrm dphm newSharePrice pror dividend a).any (fun x => decide (x < 0)) = true) :
    update_agent_wealth_capital_gains dphm newSharePrice pror dividend a =
      { a with
        aNrm := clampNegToZero (preClampANrm dphm newSharePrice pror dividend a)
        shares := zeroSharesAtZeroANrm
          (clampNegToZero (preClampANrm dphm newSharePrice pror dividend a)) a.shares
        aLvl := List.zipWith (· * ·)
          (clampNegToZero (preClampANrm dphm newSharePrice pror dividend a)) a.pLvl } := by
  unfold preClampANrm at h ⊢
  unfold update_agent_wealth_capital_gains applyDeltaANrm
  rw [if_pos h]

/-- When no component of `aNrm + delta_aNrm` is negative, the update leaves the
incremented `aNrm` as is, leaves shares untouched, and recomputes `aLvl`. -/
theorem update_noclamp_eq (dphm newSharePrice pror dividend : ℚ) (a : SharkAgent)
    (h : (preClampANrm dphm newSharePrice pror dividend a).any (fun x => decide (x < 0)) = false) :
    update_agent_wealth_capital_gains dphm newSharePrice pror dividend a =
      { a with
        aNrm := preClampANrm dphm newSharePrice pror dividend a
        aLvl := List.zipWith (· * ·) (preClampANrm dphm newSharePrice pror dividend a) a.pLvl } := by
  unfold preClampANrm at h ⊢
  unfold update_agent_wealth_capital_gains applyDeltaANrm
  rw [if_neg (by simp [h])]

/-- With matching vector lengths, `preClampANrm` has the length of `pLvl`. -/
theorem preClampANrm_length (dphm newSharePrice pror dividend : ℚ) (a : SharkAgent)
    (hs : a.shares.length = a.pLvl.length) (hn : a.aNrm.length = a.pLvl.length) :
    (preClampANrm dphm newSharePrice pror dividend a).length = a.pLvl.length := by
  simp [preClampANrm, capitalGainsDelta, List.length_zipWith, hs, hn]

/-- C1: after any call to `update_agent_wealth_capital_gains`, every agent's
`aNrm` components are nonnegative; any component of `aNrm + delta_aNrm` that
would be negative is clamped to exactly `0` with the agent's shares at that
position also set to `0` (forced liquidation); and shares that were
nonnegative on entry remain nonnegative on exit. -/
theorem update_wealth_insolvency_clamp
    (dphm newSharePrice pror dividend : ℚ) (agents : List SharkAgent) (a : SharkAgent)
    (hs : a.shares.length = a.pLvl.length) (hn : a.aNrm.length = a.pLvl.length) :
    (∀ b ∈ updatePopulationWealthCapitalGains dphm newSharePrice pror dividend agents,
        ∀ x ∈ b.aNrm, 0 ≤ x)
    ∧ (∀ i : Fin (preClampANrm dphm newSharePrice pror dividend a).length,
        (preClampANrm dphm newSharePrice pror dividend a).get i < 0 →
          (update_agent_wealth_capital_gains dphm newSharePrice pror dividend a).aNrm.getD i 0 = 0
          ∧ (update_agent_wealth_capital_gains dphm newSharePrice pror dividend a).shares.getD i 0
              = 0)
    ∧ ((∀ x ∈ a.shares, 0 ≤ x) →
        ∀ x ∈ (update_agent_wealth_capital_gains dphm newSharePrice pror dividend a).shares,
          0 ≤ x) := by
  refine ⟨?_, ?_, ?_⟩
  · intro b hb
    rcases List.mem_map.1 hb with ⟨c, _, rfl⟩
    exact applyDeltaANrm_aNrm_nonneg c _
  · intro i hineg
    have hlen := preClampANrm_length dphm newSharePrice pror dividend a hs hn
    have hany : (preClampANrm dphm newSharePrice pror dividend a).any
        (fun x => decide (x < 0)) = true :=
      List.any_eq_true.2 ⟨_, List.get_mem _ _ _,
        by simp only [decide_eq_true_eq]; exact hineg⟩
    rw [update_clamped_eq dphm newSharePrice pror dividend a hany]
    have hi1 : (i : ℕ) < (clampNegToZero (preClampANrm dphm newSharePrice pror dividend a)).length := by
      simp only [clampNegToZero, List.length_map]
      exact i.isLt
    have hiz : (clampNegToZero (preClampANrm dphm newSharePrice pror dividend a)).getD i 0 = 0 := by
      rw [List.getD_eq_getElem _ _ hi1]
      simp only [clampNegToZero, List.getElem_map]
      rw [if_pos (by simpa [List.get_eq_getElem] using hineg)]
    refine ⟨hiz, ?_⟩
    have hi2 : (i : ℕ) < (zeroSharesAtZeroANrm
        (clampNegToZero (preClampANrm dphm newSharePrice pror dividend a)) a.shares).length := by
      have h1 := i.isLt
      simp only [zeroSharesAtZeroANrm, List.length_zipWith, clampNegToZero, List.length_map]
      omega
    show (zeroSharesAtZeroANrm
        (clampNegToZero (preClampANrm dphm newSharePrice pror dividend a)) a.shares).getD i 0 = 0
    rw [List.getD_eq_getElem _ _ hi2]
    simp only [zeroSharesAtZeroANrm, List.getElem_zipWith]
    rw [List.getD_eq_getElem _ _ hi1] at hiz
    rw [hiz]
    simp
  · intro hsh
    exact applyDeltaANrm_shares_nonneg a _ hsh

/-- Concrete agent used to witness the insolvency clamp: one sub-agent holding
one share with zero assets, hit by a dividend of `-2`. -/
def agentC1 : SharkAgent := ⟨[1], [0], [0], [1], 1, 0⟩

/-- Witness for `update_wealth_insolvency_clamp` at a concrete insolvent input. -/
theorem update_wealth_insolvency_clamp_witness :
    (agentC1.shares.length = agentC1.pLvl.length
      ∧ agentC1.aNrm.length = agentC1.pLvl.length)
    ∧ ((∀ b ∈ updatePopulationWealthCapitalGains 1 1 0 (-2) [agentC1],
          ∀ x ∈ b.aNrm, 0 ≤ x)
      ∧ (∀ i : Fin (preClampANrm 1 1 0 (-2) agentC1).length,
          (preClampANrm 1 1 0 (-2) agentC1).get i < 0 →
            (update_agent_wealth_capital_gains 1 1 0 (-2) agentC1).aNrm.getD i 0 = 0
            ∧ (update_agent_wealth_capital_gains 1 1 0 (-2) agentC1).shares.getD i 0 = 0)
      ∧ ((∀ x ∈ agentC1.shares, 0 ≤ x) →
          ∀ x ∈ (update_agent_wealth_capital_gains 1 1 0 (-2) agentC1).shares, 0 ≤ x)) :=
  ⟨⟨rfl, rfl⟩, update_wealth_insolvency_clamp 1 1 0 (-2) [agentC1] agentC1 rfl rfl⟩

/-- C7: away from the clamp branch and with `pror ≠ -1`, the update changes
`aNrm` by exactly `shares * (new_share_price - old_share_price + dividend) /
(dollars_per_hark_money_unit * pLvl)` componentwise, where
`old_share_price = new_share_price / (1 + pror)`, and then recomputes
`aLvl = aNrm * pLvl`. -/
theorem update_wealth_capital_gains_formula
    (dphm newSharePrice pror dividend : ℚ) (a : SharkAgent)
    (hpror : pror ≠ -1)
    (hnoclamp : ∀ x ∈ preClampANrm dphm newSharePrice pror dividend a, 0 ≤ x) :
    (update_agent_wealth_capital_gains dphm newSharePrice pror dividend a).aNrm
      = List.zipWith3
          (fun x s p =>
            x + s * (newSharePrice - newSharePrice / (1 + pror) + dividend) / (dphm * p))
          a.aNrm a.shares a.pLvl
    ∧ (update_agent_wealth_capital_gains dphm newSharePrice pror dividend a).aLvl
      = List.zipWith (· * ·)
          (update_agent_wealth_capital_gains dphm newSharePrice pror dividend a).aNrm
          a.pLvl := by
  have hfalse : (preClampANrm dphm newSharePrice pror dividend a).any
      (fun x => decide (x < 0)) = false :=
    List.any_eq_false.2 (fun x hx => by
      simp only [decide_eq_true_eq]
      exact not_lt.2 (hnoclamp x hx))
  rw [update_noclamp_eq dphm newSharePrice pror dividend a hfalse]
  refine ⟨?_, rfl⟩
  show preClampANrm dphm newSharePrice pror dividend a = _
  simp only [preClampANrm, capitalGainsDelta]
  rw [zipWith_zipWith_eq_zipWith3]
  congr 1
  funext x s p
  ring

/-- Concrete agent used to witness the capital-gains formula. -/
def agentC7 : SharkAgent := ⟨[1], [1], [1], [1], 1, 0⟩

/-- Witness for `update_wealth_capital_gains_formula` at a concrete input
(`pror = 1/100`, so the old price reconstructs to `100`). -/
theorem update_wealth_capital_gains_formula_witness :
    ((1 : ℚ) / 100 ≠ -1
      ∧ (∀ x ∈ preClampANrm 1500 101 (1 / 100) 1 agentC7, 0 ≤ x))
    ∧ ((update_agent_wealth_capital_gains 1500 101 (1 / 100) 1 agentC7).aNrm
        = List.zipWith3
            (fun x s p => x + s * (101 - 101 / (1 + 1 / 100) + 1) / (1500 * p))
            agentC7.aNrm agentC7.shares agentC7.pLvl
      ∧ (update_agent_wealth_capital_gains 1500 101 (1 / 100) 1 agentC7).aLvl
        = List.zipWith (· * ·)
            (update_agent_wealth_capital_gains 1500 101 (1 / 100) 1 agentC7).aNrm
            agentC7.pLvl) :=
  ⟨⟨by norm_num, by norm_num [preClampANrm, capitalGainsDelta, agentC7, List.zipWith]⟩,
    update_wealth_capital_gains_formula 1500 101 (1 / 100) 1 agentC7
      (by norm_num) (by norm_num [preClampANrm, capitalGainsDelta, agentC7, List.zipWith])⟩

/-! ## Guarded (division-checked) version of the wealth update, for C10 -/

/-- Guarded rational division: `none` exactly when the denominator is zero,
mirroring the `ZeroDivisionError` a Python division would raise. -/
def qdivChecked (x y : ℚ) : Option ℚ :=
  if y = 0 then none else some (x / y)

/-- `capitalGainsDelta` with every division guarded: first the reconstruction
`old_share_price = new_share_price / (1 + pror)`, then the per-component
division by `dollars_per_hark_money_unit * pLvl`. -/
def capitalGainsDeltaChecked (dphm newSharePrice pror dividend : ℚ) (a : SharkAgent) :
    Option (List ℚ) :=
  (qdivChecked newSharePrice (1 + pror)).bind fun oldSharePrice =>
    (a.shares.zip a.pLvl).mapM fun sp =>
      qdivChecked (sp.1 * newSharePrice - sp.1 * oldSharePrice + sp.1 * dividend)
        (dphm * sp.2)

/-- `update_agent_wealth_capital_gains` with every division guarded. -/
def update_agent_wealth_capital_gains_checked (dphm newSharePrice pror dividend : ℚ)
    (a : SharkAgent) : Option SharkAgent :=
  (capitalGainsDeltaChecked dphm newSharePrice pror dividend a).map (applyDeltaANrm a)

/-- An Option-valued `mapM` succeeds pointwise when every element maps to `some`. -/
theorem mapM_eq_some_of_forall {α β : Type} (f : α → Option β) (g : α → β) (l : List α)
    (h : ∀ x ∈ l, f x = some (g x)) : l.mapM f = some (l.map g) := by
  induction l with
  | nil => rfl
  | cons x xs ih =>
    rw [List.mapM_cons, h x (List.mem_cons_self _ _),
      ih (fun y hy => h y (List.mem_cons_of_mem _ hy))]
    rfl

/-- C10: under the preconditions `pror ≠ -1`, `dollars_per_hark_money_unit ≠ 0`
and `pLvl` componentwise nonzero, every division in
`update_agent_wealth_capital_gains` is defined and the guarded version agrees
with the unguarded one; with `pror = -1` the very first division
(`old_share_price = new_share_price / (1 + pror)`) is division by zero. -/
theorem update_wealth_checked_total
    (dphm newSharePrice pror dividend : ℚ) (a : SharkAgent)
    (hpror : pror ≠ -1) (hdphm : dphm ≠ 0) (hpLvl : ∀ p ∈ a.pLvl, p ≠ 0) :
    update_agent_wealth_capital_gains_checked dphm newSharePrice pror dividend a
      = some (update_agent_wealth_capital_gains dphm newSharePrice pror dividend a)
    ∧ ∀ (d n v : ℚ) (b : SharkAgent),
        update_agent_wealth_capital_gains_checked d n (-1) v b = none := by
  constructor
  · have h1 : (1 : ℚ) + pror ≠ 0 := fun h => hpror (by linarith)
    have hq : qdivChecked newSharePrice (1 + pror)
        = some (newSharePrice / (1 + pror)) := by
      simp [qdivChecked, h1]
    have hmap : (a.shares.zip a.pLvl).mapM
        (fun sp => qdivChecked
          (sp.1 * newSharePrice - sp.1 * (newSharePrice / (1 + pror)) + sp.1 * dividend)
          (dphm * sp.2))
        = some ((a.shares.zip a.pLvl).map
          (fun sp => (sp.1 * newSharePrice - sp.1 * (newSharePrice / (1 + pror))
            + sp.1 * dividend) / (dphm * sp.2))) := by
      refine mapM_eq_some_of_forall _ _ _ (fun sp hsp => ?_)
      have hp2 : sp.2 ∈ a.pLvl := (List.of_mem_zip hsp).2
      simp [qdivChecked, mul_ne_zero hdphm (hpLvl _ hp2)]
    unfold update_agent_wealth_capital_gains_checked capitalGainsDeltaChecked
    rw [hq, Option.some_bind, hmap]
    simp only [Option.map_some']
    congr 1
    unfold update_agent_wealth_capital_gains
    congr 1
    simp only [capitalGainsDelta]
    rw [zipWith_eq_map_zip]
  · intro d n v b
    have hz : qdivChecked n (1 + -1) = none := by
      norm_num [qdivChecked]
    unfold update_agent_wealth_capital_gains_checked capitalGainsDeltaChecked
    rw [hz]
    rfl

/-- Witness for `update_wealth_checked_total` at a concrete input. -/
theorem update_wealth_checked_total_witness :
    ((1 : ℚ) ≠ -1 ∧ (1500 : ℚ) ≠ 0 ∧ (∀ p ∈ agentC7.pLvl, p ≠ 0))
    ∧ (update_agent_wealth_capital_gains_checked 1500 101 1 1 agentC7
        = some (update_agent_wealth_capital_gains 1500 101 1 1 agentC7)
      ∧ ∀ (d n v : ℚ) (b : SharkAgent),
          update_agent_wealth_capital_gains_checked d n (-1) v b = none) :=
  ⟨⟨by norm_num, by norm_num, by norm_num [agentC7]⟩,
    update_wealth_checked_total 1500 101 1 1 agentC7 (by norm_num) (by norm_num)
      (by norm_num [agentC7])⟩

/-! ## `AgentPopulation.compute_share_demand` and `AgentPopulation.attend`
     (src/sharkfin/population.py, lines 309-336 and 369-424)

The HARK policy function `agent.solution[0].SequentialShareFuncAdj` installed
by `assign_solution` depends on the agent's `RiskyAvg`/`RiskyStd` perceptions;
it is opaque to the core and is embedded as an explicit function parameter
`pol : ℚ → ℚ → List ℚ → List ℚ` (arguments: `RiskyAvg`, `RiskyStd`, the
`aNrm` vector). -/

/-- First clamp pass, `risky_share[risky_share < 0] = 0.0`. -/
def clampShareBelow (l : List ℚ) : List ℚ :=
  l.map (fun x => if x < 0 then 0 else x)

/-- Second clamp pass, `risky_share[risky_share > 1] = 1.0`. -/
def clampShareAbove (l : List ℚ) : List ℚ :=
  l.map (fun x => if 1 < x then 1 else x)

/-- The clamped risky-share fraction used by `compute_share_demand`. -/
def clampedRiskyShare (pol : ℚ → ℚ → List ℚ → List ℚ) (a : SharkAgent) : List ℚ :=
  clampShareAbove (clampShareBelow (pol a.riskyAvg a.riskyStd a.aNrm))

/-- `AgentPopulation.compute_share_demand`: evaluates the policy risky share on
`aNrm`, clamps it into `[0, 1]` (emitting a diagnostic for each out-of-range
direction, returned here as the two Booleans), denormalizes through `pLvl` and
`dollars_per_hark_money_unit`, and divides by the current price.  Returns
(shares, negative-share diagnostic, over-unity diagnostic). -/
def compute_share_demand (dphm : ℚ) (pol : ℚ → ℚ → List ℚ → List ℚ) (price : ℚ)
    (a : SharkAgent) : List ℚ × Bool × Bool :=
  let riskyShare := pol a.riskyAvg a.riskyStd a.aNrm
  let negWarn := riskyShare.any (fun x => decide (x < 0))
  let overWarn := (clampShareBelow riskyShare).any (fun x => decide (1 < x))
  let riskyAssetWealth := List.zipWith (fun rw p => rw * p * dphm)
    (List.zipWith (fun r an => r * an) (clampedRiskyShare pol a) a.aNrm) a.pLvl
  (riskyAssetWealth.map (fun w => w / price), negWarn, overWarn)

/-- `AgentPopulation.attend`: assigns the risky expectations to the agent,
recomputes the target share quantity via `compute_share_demand`, returns
`delta_shares = target_shares - agent.shares`, and mutates the agent's shares
to the target.  Returns (delta, mutated agent). -/
def attend (dphm : ℚ) (pol : ℚ → ℚ → List ℚ → List ℚ) (price : ℚ)
    (riskyExpectations : ℚ × ℚ) (a : SharkAgent) : List ℚ × SharkAgent :=
  let a1 : SharkAgent :=
    { a with riskyAvg := riskyExpectations.1, riskyStd := riskyExpectations.2 }
  let targetShares := (compute_share_demand dphm pol price a1).1
  (List.zipWith (fun t s => t - s) targetShares a1.shares,
    { a1 with shares := targetShares })

/-- C5: `attend` mutates the agent's shares to the `compute_share_demand`
target and returns `delta = target - shares`; `compute_share_demand` clamps
the policy risky-share fraction into `[0, 1]` (below-zero components to `0`,
above-one components to `1`, with a diagnostic for each direction), and under
nonnegative normalized assets and a positive price the returned target share
quantity is componentwise nonnegative. -/
theorem attend_target_and_clamp
    (dphm price : ℚ) (pol : ℚ → ℚ → List ℚ → List ℚ) (re : ℚ × ℚ) (a : SharkAgent)
    (hprice : 0 < price) (hdphm : 0 ≤ dphm)
    (haN : ∀ x ∈ a.aNrm, 0 ≤ x) (hpL : ∀ x ∈ a.pLvl, 0 ≤ x) :
    (attend dphm pol price re a).2.shares
        = (compute_share_demand dphm pol price
            { a with riskyAvg := re.1, riskyStd := re.2 }).1
    ∧ (attend dphm pol price re a).1
        = List.zipWith (fun t s => t - s)
            (compute_share_demand dphm pol price
              { a with riskyAvg := re.1, riskyStd := re.2 }).1 a.shares
    ∧ (∀ x ∈ clampedRiskyShare pol { a with riskyAvg := re.1, riskyStd := re.2 },
        0 ≤ x ∧ x ≤ 1)
    ∧ ((∃ x ∈ pol re.1 re.2 a.aNrm, x < 0) →
        (compute_share_demand dphm pol price
          { a with riskyAvg := re.1, riskyStd := re.2 }).2.1 = true)
    ∧ ((∃ x ∈ clampShareBelow (pol re.1 re.2 a.aNrm), 1 < x) →
        (compute_share_demand dphm pol price
          { a with riskyAvg := re.1, riskyStd := re.2 }).2.2 = true)
    ∧ (∀ x ∈ (compute_share_demand dphm pol price
          { a with riskyAvg := re.1, riskyStd := re.2 }).1, 0 ≤ x) := by
  refine ⟨rfl, rfl, ?_, ?_, ?_, ?_⟩
  · intro x hx
    rcases List.mem_map.1 hx with ⟨y, hy, rfl⟩
    have hy0 : 0 ≤ y := by
      rcases List.mem_map.1 hy with ⟨z, _, rfl⟩
      split
      · exact le_refl (0 : ℚ)
      · next h => exact le_of_not_lt h
    constructor
    · split
      · exact zero_le_one
      · exact hy0
    · split
      · exact le_refl (1 : ℚ)
      · next h => exact le_of_not_lt h
  · intro ⟨x, hx, hneg⟩
    exact List.any_eq_true.2 ⟨x, hx, by simp only [decide_eq_true_eq]; exact hneg⟩
  · intro ⟨x, hx, hover⟩
    exact List.any_eq_true.2 ⟨x, hx, by simp only [decide_eq_true_eq]; exact hover⟩
  · intro x hx
    rcases List.mem_map.1 hx with ⟨w, hw, rfl⟩
    rcases exists_of_mem_zipWith hw with ⟨rw1, hrw1, p, hp, rfl⟩
    rcases exists_of_mem_zipWith hrw1 with ⟨r, hr, an, han, rfl⟩
    have hr0 : 0 ≤ r := by
      rcases List.mem_map.1 hr with ⟨y, hy, rfl⟩
      have hy0 : 0 ≤ y := by
        rcases List.mem_map.1 hy with ⟨z, _, rfl⟩
        split
        · exact le_refl (0 : ℚ)
        · next h => exact le_of_not_lt h
      split
      · exact zero_le_one
      · exact hy0
    exact div_nonneg
      (mul_nonneg (mul_nonneg (mul_nonneg hr0 (haN an han)) (hpL p hp)) hdphm)
      (le_of_lt hprice)

/-- Witness for `attend_target_and_clamp` with the identity policy on a
concrete agent. -/
theorem attend_target_and_clamp_witness :
    ((0 : ℚ) < 100 ∧ (0 : ℚ) ≤ 1500
      ∧ (∀ x ∈ agentC7.aNrm, 0 ≤ x) ∧ (∀ x ∈ agentC7.pLvl, 0 ≤ x))
    ∧ ((attend 1500 (fun _ _ l => l) 100 (1, 0) agentC7).2.shares
        = (compute_share_demand 1500 (fun _ _ l => l) 100
            { agentC7 with riskyAvg := (1 : ℚ), riskyStd := (0 : ℚ) }).1
      ∧ (attend 1500 (fun _ _ l => l) 100 (1, 0) agentC7).1
        = List.zipWith (fun t s => t - s)
            (compute_share_demand 1500 (fun _ _ l => l) 100
              { agentC7 with riskyAvg := (1 : ℚ), riskyStd := (0 : ℚ) }).1 agentC7.shares
      ∧ (∀ x ∈ clampedRiskyShare (fun _ _ l => l)
            { agentC7 with riskyAvg := (1 : ℚ), riskyStd := (0 : ℚ) }, 0 ≤ x ∧ x ≤ 1)
      ∧ ((∃ x ∈ (fun (_ _ : ℚ) (l : List ℚ) => l) 1 0 agentC7.aNrm, x < 0) →
          (compute_share_demand 1500 (fun _ _ l => l) 100
            { agentC7 with riskyAvg := (1 : ℚ), riskyStd := (0 : ℚ) }).2.1 = true)
      ∧ ((∃ x ∈ clampShareBelow ((fun (_ _ : ℚ) (l : List ℚ) => l) 1 0 agentC7.aNrm), 1 < x) →
          (compute_share_demand 1500 (fun _ _ l => l) 100
            { agentC7 with riskyAvg := (1 : ℚ), riskyStd := (0 : ℚ) }).2.2 = true)
      ∧ (∀ x ∈ (compute_share_demand 1500 (fun _ _ l => l) 100
            { agentC7 with riskyAvg := (1 : ℚ), riskyStd := (0 : ℚ) }).1, 0 ≤ x)) :=
  ⟨⟨by norm_num, by norm_num, by norm_num [agentC7], by norm_num [agentC7]⟩,
    attend_target_and_clamp 1500 100 (fun _ _ l => l) (1, 0) agentC7
      (by norm_num) (by norm_num) (by norm_num [agentC7]) (by norm_num [agentC7])⟩

/-! ## `AgentPopulation.macro_update` (src/sharkfin/population.py, lines 426-484)

The one-period HARK `agent.simulate(sim_periods=1)` call is opaque to the
core; it reads the currently assigned `RiskyAvg`/`RiskyStd` parameters and
rewrites the agent's simulation state `(aNrm, aLvl, pLvl)`, but touches
neither `agent.shares` nor the parameter attributes themselves.  It is
embedded as a function parameter
`sim : ℚ → ℚ → List ℚ × List ℚ × List ℚ → List ℚ × List ℚ × List ℚ`
(arguments: the assigned `RiskyAvg` and `RiskyStd`, the state triple). -/

/-- `AgentPopulation.macro_update`: saves the agent's true risky expectations,
assigns the no-change expectations `{RiskyAvg: 1, RiskyStd: 0}`, simulates one
macro period, reassigns the saved expectations, then liquidates shares as
needed to finance consumption: `delta = aLvl * dphm / price - shares` with
positive components zeroed, added onto the agent's shares.  Returns
(delta, mutated agent). -/
def macroUpdate (dphm : ℚ)
    (sim : ℚ → ℚ → List ℚ × List ℚ × List ℚ → List ℚ × List ℚ × List ℚ)
    (price : ℚ) (a : SharkAgent) : List ℚ × SharkAgent :=
  let trueAvg := a.riskyAvg
  let trueStd := a.riskyStd
  let simOut := sim 1 0 (a.aNrm, a.aLvl, a.pLvl)
  let a2 : SharkAgent :=
    { shares := a.shares, aNrm := simOut.1, aLvl := simOut.2.1, pLvl := simOut.2.2,
      riskyAvg := trueAvg, riskyStd := trueStd }
  let assetLevelInShares := a2.aLvl.map (fun al => al * dphm / price)
  let delta := (List.zipWith (fun x s => x - s) assetLevelInShares a2.shares).map
    (fun d => if 0 < d then 0 else d)
  (delta, { a2 with shares := List.zipWith (· + ·) a2.shares delta })

/-- C9: `macro_update` leaves the agent's `RiskyAvg` and `RiskyStd` unchanged
on return: the entry values are saved, the no-change expectations
`{RiskyAvg: 1, RiskyStd: 0}` are assigned only for the one-period simulate
call, and the saved values are reassigned before returning. -/
theorem macroUpdate_restores_risky_expectations
    (dphm price : ℚ)
    (sim : ℚ → ℚ → List ℚ × List ℚ × List ℚ → List ℚ × List ℚ × List ℚ)
    (a : SharkAgent) :
    (macroUpdate dphm sim price a).2.riskyAvg = a.riskyAvg
    ∧ (macroUpdate dphm sim price a).2.riskyStd = a.riskyStd :=
  ⟨rfl, rfl⟩

/-- C6: `macro_update` returns a componentwise nonpositive share delta,
mutates the agent's shares by exactly adding that delta, and therefore never
increases any share holding. -/
theorem macroUpdate_liquidation_only
    (dphm price : ℚ)
    (sim : ℚ → ℚ → List ℚ × List ℚ × List ℚ → List ℚ × List ℚ × List ℚ)
    (a : SharkAgent)
    (hlen : (sim 1 0 (a.aNrm, a.aLvl, a.pLvl)).2.1.length = a.shares.length) :
    (∀ d ∈ (macroUpdate dphm sim price a).1, d ≤ 0)
    ∧ (macroUpdate dphm sim price a).2.shares
        = List.zipWith (· + ·) a.shares (macroUpdate dphm sim price a).1
    ∧ (∀ i : ℕ,
        (macroUpdate dphm sim price a).2.shares.getD i 0 ≤ a.shares.getD i 0) := by
  have hdelta_le : ∀ d ∈ (macroUpdate dphm sim price a).1, d ≤ 0 := by
    intro d hd
    rcases List.mem_map.1 hd with ⟨y, _, rfl⟩
    split
    · exact le_refl (0 : ℚ)
    · next h => exact le_of_not_lt h
  have hdlen : (macroUpdate dphm sim price a).1.length = a.shares.length := by
    simp [macroUpdate, List.length_map, List.length_zipWith, hlen]
  refine ⟨hdelta_le, rfl, ?_⟩
  intro i
  by_cases hi : i < a.shares.length
  · have hslen : (macroUpdate dphm sim price a).2.shares.length = a.shares.length := by
      show (List.zipWith (· + ·) a.shares (macroUpdate dphm sim price a).1).length
        = a.shares.length
      simp [List.length_zipWith, hdlen]
    have hi2 : i < (macroUpdate dphm sim price a).2.shares.length := by
      rw [hslen]; exact hi
    rw [List.getD_eq_getElem _ _ hi2, List.getD_eq_getElem _ _ hi]
    show (List.zipWith (· + ·) a.shares (macroUpdate dphm sim price a).1).get
      ⟨i, hi2⟩ ≤ _
    rw [List.get_eq_getElem, List.getElem_zipWith]
    have hmem : (macroUpdate dphm sim price a).1.getD i 0
        ∈ (macroUpdate dphm sim price a).1 := by
      have hi3 : i < (macroUpdate dphm sim price a).1.length := by rw [hdlen]; exact hi
      rw [List.getD_eq_getElem _ _ hi3]
      exact List.getElem_mem hi3
    have := hdelta_le _ hmem
    have hi3 : i < (macroUpdate dphm sim price a).1.length := by rw [hdlen]; exact hi
    rw [List.getD_eq_getElem _ _ hi3] at this
    have heq : (macroUpdate dphm sim price a).1.get ⟨i, hi3⟩
        = (macroUpdate dphm sim price a).1[i] := List.get_eq_getElem _ _
    linarith [this]
  · have hle : a.shares.length ≤ i := le_of_not_lt hi
    rw [List.getD_eq_default _ _ hle]
    have hslen : (macroUpdate dphm sim price a).2.shares.length = a.shares.length := by
      show (List.zipWith (· + ·) a.shares (macroUpdate dphm sim price a).1).length
        = a.shares.length
      simp [List.length_zipWith, hdlen]
    rw [List.getD_eq_default _ _ (by rw [hslen]; exact hle)]

/-- Witness for `macroUpdate_liquidation_only` with the identity simulate call
on a concrete agent. -/
theorem macroUpdate_liquidation_only_witness :
    ((fun (_ _ : ℚ) (t : List ℚ × List ℚ × List ℚ) => t) 1 0
        (agentC7.aNrm, agentC7.aLvl, agentC7.pLvl)).2.1.length = agentC7.shares.length
    ∧ ((∀ d ∈ (macroUpdate 1500 (fun _ _ t => t) 100 agentC7).1, d ≤ 0)
      ∧ (macroUpdate 1500 (fun _ _ t => t) 100 agentC7).2.shares
          = List.zipWith (· + ·) agentC7.shares
              (macroUpdate 1500 (fun _ _ t => t) 100 agentC7).1
      ∧ (∀ i : ℕ, (macroUpdate 1500 (fun _ _ t => t) 100 agentC7).2.shares.getD i 0
            ≤ agentC7.shares.getD i 0)) :=
  ⟨rfl, macroUpdate_liquidation_only 1500 100 (fun _ _ t => t) agentC7 rfl⟩

/-! ## Markets (src/sharkfin/markets/__init__.py)

`AbstractMarket` keeps two append-only lists, `prices` and `dividends`.
The lognormal draw in `MockMarket.run_market` is embedded as an explicit
`draw` argument (the sampled new price). -/

/-- The price/dividend history every market implementation carries. -/
structure MarketHist where
  prices : List ℚ
  dividends : List ℚ
deriving DecidableEq, Repr

/-- `price_to_dividend_ratio = 60 / 0.05` (discounted future value divided by
days per quarter), used by both `run_market` and `dummy_run`. -/
def priceToDividendRatio : ℚ := 60 / (5 / 100)

/-- `AbstractMarket.dummy_run`: acts as if the market ran for one day, using
the most recent rate of return to extrapolate the next price
(`prices[-1] / prices[-2] * prices[-1]`) with no stochasticity, and appends
the matching dividend. -/
def MarketHist.dummy_run (m : MarketHist) : (ℚ × ℚ) × MarketHist :=
  let price := m.prices.getLastD 0 / m.prices.dropLast.getLastD 0 * m.prices.getLastD 0
  let dividend := price / priceToDividendRatio
  ((price, dividend), ⟨m.prices ++ [price], m.dividends ++ [dividend]⟩)

/-- `MockMarket` state: the shared history plus the bookkeeping fields
`last_seed` and `last_buy_sell`. -/
structure MockMarket where
  hist : MarketHist
  lastSeed : Option ℕ
  lastBuySell : Option (ℚ × ℚ)
deriving DecidableEq, Repr

/-- `MockMarket.__init__`: `prices = [default_sim_price] = [100]`,
`dividends = [0]`. -/
def MockMarket.init : MockMarket :=
  ⟨⟨[100], [0]⟩, none, none⟩

/-- `MockMarket.run_market`: records the seed and the buy/sell tuple, samples
the new price (the lognormal draw is the `draw` argument), appends it to
`prices`, and appends `price / price_to_dividend_ratio` to `dividends`. -/
def MockMarket.run_market (seed : ℕ) (buySell : ℚ × ℚ) (draw : ℚ) (m : MockMarket) :
    (ℚ × ℚ) × MockMarket :=
  let price := draw
  let dividend := price / priceToDividendRatio
  ((price, dividend),
    ⟨⟨m.hist.prices ++ [price], m.hist.dividends ++ [dividend]⟩, some seed, some buySell⟩)

/-- One market-clearing event: a real clear through `run_market` or a
no-stochasticity `dummy_run` clear used to pad skipped sub-step days. -/
inductive ClearEvent
  | clear (seed : ℕ) (buySell : ℚ × ℚ) (draw : ℚ)
  | dummy
deriving DecidableEq, Repr

/-- Apply one clearing event to a `MockMarket`. -/
def MockMarket.applyClear (m : MockMarket) : ClearEvent → MockMarket
  | .clear seed buySell draw => (m.run_market seed buySell draw).2
  | .dummy =>
      let r := m.hist.dummy_run
      ⟨r.2, m.lastSeed, m.lastBuySell⟩

/-- A sequence of clearing events folded over a `MockMarket`. -/
def MockMarket.runClears (evs : List ClearEvent) (m : MockMarket) : MockMarket :=
  evs.foldl MockMarket.applyClear m

/-- Each clearing event adds exactly one price and one dividend. -/
theorem applyClear_lengths (m : MockMarket) (e : ClearEvent) :
    (m.applyClear e).hist.prices.length = m.hist.prices.length + 1
    ∧ (m.applyClear e).hist.dividends.length = m.hist.dividends.length + 1 := by
  cases e with
  | clear seed buySell draw =>
    exact ⟨by simp [MockMarket.applyClear, MockMarket.run_market],
      by simp [MockMarket.applyClear, MockMarket.run_market]⟩
  | dummy =>
    exact ⟨by simp [MockMarket.applyClear, MarketHist.dummy_run],
      by simp [MockMarket.applyClear, MarketHist.dummy_run]⟩

/-- After `N` clearing events over a fresh `MockMarket`, both histories have
exactly `N + 1` entries. -/
theorem runClears_lengths (evs : List ClearEvent) (m : MockMarket) :
    (MockMarket.runClears evs m).hist.prices.length
      = m.hist.prices.length + evs.length
    ∧ (MockMarket.runClears evs m).hist.dividends.length
      = m.hist.dividends.length + evs.length := by
  induction evs generalizing m with
  | nil => exact ⟨rfl, rfl⟩
  | cons e es ih =>
    rcases ih (m.applyClear e) with ⟨h1, h2⟩
    rcases applyClear_lengths m e with ⟨h3, h4⟩
    constructor
    · show (MockMarket.runClears es (m.applyClear e)).hist.prices.length = _
      rw [h1, h3]
      simp only [List.length_cons]
      omega
    · show (MockMarket.runClears es (m.applyClear e)).hist.dividends.length = _
      rw [h2, h4]
      simp only [List.length_cons]
      omega

/-! ## The `AttentionSimulation.simulate` loop
     (src/sharkfin/simulation.py, lines 703-801)

The Broker (`sharkfin/broker.py`) is not among the sources under
verification; only its call sites are.  Its contract is modelled from the
spec, section 4.1.  Each run records its observable population actions as
trace events; `tick` is the index of the `broker.trade` call of the run an
event belongs to. -/

/-- One observable action of the loop on the population. -/
inductive SimEvent
  | attendEv (tick : ℕ) (agent : ℕ) (price : ℚ)
  | tradeEv (tick : ℕ) (price : ℚ)
  | macroEv (tick : ℕ) (agent : ℕ) (price : ℚ)
  | wealthEv (tick : ℕ) (price ror dividend : ℚ)
deriving DecidableEq, Repr

/-- Outcome of one `broker.trade` call as produced by the underlying market:
either the tuple `(buy_sell, ror, price, dividend)` or a
`MarketFailureError` carrying its message string. -/
inductive TradeResult
  | ok (buySell : ℚ × ℚ) (ror price dividend : ℚ)
  | failure (msg : String)
deriving DecidableEq, Repr

/-- Whether a trade call succeeded. -/
def TradeResult.isOk : TradeResult → Bool
  | .ok _ _ _ _ => true
  | .failure _ => false

/-- Static configuration of one `AttentionSimulation.simulate` run: the
per-agent `macro_day` assignments (also fixing the number of agents), the
loop bounds, the attention rate, the random stream (`rng n` is the `n`-th
value of `self.rng.random()`, uniform on `[0, 1)`), and the trade oracle
(`trades n` is the outcome of the `n`-th `broker.trade` call). -/
structure SimConfig where
  macroDays : List ℕ
  quarters : ℕ
  runsPerQuarter : ℕ
  daysPerRun : ℕ
  attentionRate : ℚ
  rng : ℕ → ℚ
  trades : ℕ → TradeResult

/-- State threaded through the loop: the market history, the Broker's two
realized-flow logs, the `error_message` / end-time / closed flags of the
simulation object, the event trace, and the positions in the random and
trade streams. -/
structure SimState where
  market : MarketHist
  buySellHistory : List (ℚ × ℚ)
  buySellMacroHistory : List (ℚ × ℚ)
  errorMessage : Option String
  endTimeSet : Bool
  closed : Bool
  trace : List SimEvent
  rngIdx : ℕ
  tick : ℕ
  days : ℕ

/-- Fresh state at the start of `simulate` over a `MockMarket`, without
burn-in: seed histories, empty logs, no error. -/
def SimState.init : SimState :=
  ⟨MockMarket.init.hist, [], [], none, false, false, [], 0, 0, 0⟩

/-- One agent's attention draw: `if self.rng.random() < self.attention_rate`,
`pop.attend(agent, self.market.prices[-1], ...)` is called at the pre-clear
price and its order forwarded to the broker. -/
def attentionStep (cfg : SimConfig) (st : SimState) (i : ℕ) : SimState :=
  if cfg.rng st.rngIdx < cfg.attentionRate then
    { st with
      rngIdx := st.rngIdx + 1
      trace := st.trace ++ [.attendEv st.tick i (st.market.prices.getLastD 0)] }
  else
    { st with rngIdx := st.rngIdx + 1 }

/-- The `for agent in self.pop.agents` attention loop of one run. -/
def attentionPhase (cfg : SimConfig) (st : SimState) : SimState :=
  (List.range cfg.macroDays.length).foldl (attentionStep cfg) st

/-- Modelled from the spec: `Broker.trade` (`sharkfin/broker.py` is not among
the sources; spec section 4.1): submits the pending aggregate to the market,
which appends exactly one price and one dividend to its history, appends the
realized (buy, sell) pair to both history logs, resets the aggregate, and
returns `(buy_sell, ror, price, dividend)`. -/
def tradeStep (bs : ℚ × ℚ) (price dividend : ℚ) (st : SimState) : SimState :=
  { st with
    market := ⟨st.market.prices ++ [price], st.market.dividends ++ [dividend]⟩
    buySellHistory := st.buySellHistory ++ [bs]
    buySellMacroHistory := st.buySellMacroHistory ++ [bs]
    trace := st.trace ++ [.tradeEv st.tick price] }

/-- Macro updates of one sub-step day: every agent whose `macro_day` equals
`day` gets `pop.macro_update(agent, price)` at the just-cleared `price`,
with the order forwarded to the broker with `macro=True`. -/
def macroPhase (cfg : SimConfig) (price : ℚ) (day : ℕ) (st : SimState) : SimState :=
  (List.range cfg.macroDays.length).foldl
    (fun s i =>
      if cfg.macroDays.getD i 0 = day then
        { s with trace := s.trace ++ [.macroEv s.tick i price] }
      else s) st

/-- Padding of a skipped sub-step day: `(0, 0)` appended to
`broker.buy_sell_history` and `broker.buy_sell_macro_history`, and
`self.market.dummy_run()`. -/
def skippedDayPad (st : SimState) : SimState :=
  { st with
    buySellHistory := st.buySellHistory ++ [(0, 0)]
    buySellMacroHistory := st.buySellMacroHistory ++ [(0, 0)]
    market := st.market.dummy_run.2 }

/-- One iteration of the `for day_in_run` loop: macro updates, the
skipped-day padding on every day but the first of the run, then
`pop.update_agent_wealth_capital_gains(price, pror, dividend)`. -/
def dayStep (cfg : SimConfig) (price ror dividend : ℚ) (first : Bool) (day : ℕ)
    (st : SimState) : SimState :=
  let st1 := macroPhase cfg price day st
  let st2 := if first then st1 else skippedDayPad st1
  { st2 with
    trace := st2.trace ++ [.wealthEv st2.tick price ror dividend]
    days := st2.days + 1 }

/-- The whole `for day_in_run in range(int(self.days_per_run))` loop; returns
the updated state together with the updated day-of-quarter counter. -/
def dayLoop (cfg : SimConfig) (price ror dividend : ℚ) :
    ℕ → Bool → ℕ → SimState → SimState × ℕ
  | 0, _, day, st => (st, day)
  | n + 1, first, day, st =>
      dayLoop cfg price ror dividend n false (day + 1)
        (dayStep cfg price ror dividend first day st)

/-- Outcome of one run iteration: continue, or stop on `MarketFailureError`. -/
inductive RunOutcome
  | ok (st : SimState) (day : ℕ)
  | failed (st : SimState)

/-- One `for run in range(self.runs_per_quarter)` iteration: the attention
loop, `broker.trade` inside the `try` (recording `str(e)` in
`self.error_message` and breaking on `MarketFailureError`), then the
sub-step day loop. -/
def doRun (cfg : SimConfig) (day : ℕ) (st : SimState) : RunOutcome :=
  match cfg.trades (attentionPhase cfg st).tick with
  | .failure msg => .failed { attentionPhase cfg st with errorMessage := some msg }
  | .ok bs ror price dividend =>
      let r := dayLoop cfg price ror dividend cfg.daysPerRun true day
        (tradeStep bs price dividend (attentionPhase cfg st))
      .ok { r.1 with tick := r.1.tick + 1 } r.2

/-- The runs loop of one quarter. -/
def doRuns (cfg : SimConfig) : ℕ → ℕ → SimState → RunOutcome
  | 0, day, st => .ok st day
  | n + 1, day, st =>
      match doRun cfg day st with
      | .failed st1 => .failed st1
      | .ok st1 day1 => doRuns cfg n day1 st1

/-- The quarters loop: a quarter that broke out on `MarketFailureError` sets
the end time and returns immediately (skipping `broker.close()`); normal
completion of all quarters closes the broker and then sets the end time. -/
def doQuarters (cfg : SimConfig) : ℕ → SimState → SimState
  | 0, st => { st with closed := true, endTimeSet := true }
  | q + 1, st =>
      match doRuns cfg cfg.runsPerQuarter 0 st with
      | .ok st1 _ => doQuarters cfg q st1
      | .failed st1 => { st1 with endTimeSet := true }

/-- `AttentionSimulation.simulate` from a given starting state. -/
def simulateFrom (cfg : SimConfig) (st : SimState) : SimState :=
  doQuarters cfg cfg.quarters st

/-- `AttentionSimulation.simulate` from a fresh start (no burn-in). -/
def simulate (cfg : SimConfig) : SimState :=
  simulateFrom cfg SimState.init

/-- C2: the histories start with exactly one seed entry (price 100,
dividend 0); `MockMarket.run_market` and `dummy_run` each append exactly one
price and one dividend per call; each skipped sub-step day appends exactly
one `(0, 0)` pair to both buy/sell history logs (and one dummy price and
dividend); hence after `N` clearing events (real or dummy) the price and
dividend histories have exactly `N + 1` entries. -/
theorem history_logs_advance_one_per_clear :
    (MockMarket.init.hist.prices = [100] ∧ MockMarket.init.hist.dividends = [0])
    ∧ (∀ (seed : ℕ) (bs : ℚ × ℚ) (draw : ℚ) (m : MockMarket),
        (m.run_market seed bs draw).2.hist.prices.length = m.hist.prices.length + 1
        ∧ (m.run_market seed bs draw).2.hist.dividends.length
            = m.hist.dividends.length + 1)
    ∧ (∀ m : MarketHist,
        m.dummy_run.2.prices.length = m.prices.length + 1
        ∧ m.dummy_run.2.dividends.length = m.dividends.length + 1)
    ∧ (∀ st : SimState,
        (skippedDayPad st).buySellHistory = st.buySellHistory ++ [(0, 0)]
        ∧ (skippedDayPad st).buySellMacroHistory = st.buySellMacroHistory ++ [(0, 0)]
        ∧ (skippedDayPad st).market.prices.length = st.market.prices.length + 1
        ∧ (skippedDayPad st).market.dividends.length = st.market.dividends.length + 1)
    ∧ (∀ evs : List ClearEvent,
        (MockMarket.runClears evs MockMarket.init).hist.prices.length = evs.length + 1
        ∧ (MockMarket.runClears evs MockMarket.init).hist.dividends.length
            = evs.length + 1) := by
  refine ⟨⟨rfl, rfl⟩, ?_, ?_, ?_, ?_⟩
  · intro seed bs draw m
    exact ⟨by simp [MockMarket.run_market], by simp [MockMarket.run_market]⟩
  · intro m
    exact ⟨by simp [MarketHist.dummy_run], by simp [MarketHist.dummy_run]⟩
  · intro st
    refine ⟨rfl, rfl, ?_, ?_⟩
    · simp [skippedDayPad, MarketHist.dummy_run]
    · simp [skippedDayPad, MarketHist.dummy_run]
  · intro evs
    rcases runClears_lengths evs MockMarket.init with ⟨h1, h2⟩
    constructor
    · rw [h1]
      simp [MockMarket.init]
      omega
    · rw [h2]
      simp [MockMarket.init]
      omega

/-! ## Frame lemmas for the loop phases -/

/-- All components of a `SimState` other than the trace and the random-stream
position, bundled for frame reasoning. -/
def SimState.core (st : SimState) :
    MarketHist × List (ℚ × ℚ) × List (ℚ × ℚ) × Option String × Bool × Bool × ℕ × ℕ :=
  (st.market, st.buySellHistory, st.buySellMacroHistory, st.errorMessage,
    st.endTimeSet, st.closed, st.tick, st.days)

/-- An attention draw changes only the random position and the trace. -/
theorem attentionStep_core (cfg : SimConfig) (st : SimState) (i : ℕ) :
    (attentionStep cfg st i).core = st.core := by
  unfold attentionStep
  split <;> rfl

/-- The attention fold changes only the random position and the trace. -/
theorem attentionFold_core (cfg : SimConfig) (l : List ℕ) :
    ∀ st : SimState, (l.foldl (attentionStep cfg) st).core = st.core := by
  induction l with
  | nil => intro st; rfl
  | cons i is ih =>
    intro st
    exact (ih (attentionStep cfg st i)).trans (attentionStep_core cfg st i)

/-- Unpacked field equalities of `attentionPhase` from the core equality. -/
theorem attentionPhase_fields (cfg : SimConfig) (st : SimState) :
    (attentionPhase cfg st).market = st.market
    ∧ (attentionPhase cfg st).buySellHistory = st.buySellHistory
    ∧ (attentionPhase cfg st).buySellMacroHistory = st.buySellMacroHistory
    ∧ (attentionPhase cfg st).errorMessage = st.errorMessage
    ∧ (attentionPhase cfg st).endTimeSet = st.endTimeSet
    ∧ (attentionPhase cfg st).closed = st.closed
    ∧ (attentionPhase cfg st).tick = st.tick
    ∧ (attentionPhase cfg st).days = st.days := by
  have h := attentionFold_core cfg (List.range cfg.macroDays.length) st
  simp only [SimState.core, Prod.mk.injEq] at h
  exact ⟨h.1, h.2.1, h.2.2.1, h.2.2.2.1, h.2.2.2.2.1, h.2.2.2.2.2.1,
    h.2.2.2.2.2.2.1, h.2.2.2.2.2.2.2⟩

/-- The attention fold appends only attention events, all carrying the tick
and the pre-clear price of the state the fold started from. -/
theorem attentionFold_trace (cfg : SimConfig) (l : List ℕ) :
    ∀ st : SimState, ∃ evs, (l.foldl (attentionStep cfg) st).trace = st.trace ++ evs
      ∧ ∀ e ∈ evs, ∃ j, e = SimEvent.attendEv st.tick j (st.market.prices.getLastD 0) := by
  induction l with
  | nil => intro st; exact ⟨[], by simp, by simp⟩
  | cons i is ih =>
    intro st
    rcases ih (attentionStep cfg st i) with ⟨evs, hevs, hall⟩
    have hcore := attentionStep_core cfg st i
    simp only [SimState.core, Prod.mk.injEq] at hcore
    have htick : (attentionStep cfg st i).tick = st.tick := hcore.2.2.2.2.2.2.1
    have hmkt : (attentionStep cfg st i).market = st.market := hcore.1
    by_cases hc : cfg.rng st.rngIdx < cfg.attentionRate
    · refine ⟨SimEvent.attendEv st.tick i (st.market.prices.getLastD 0) :: evs, ?_, ?_⟩
      · show (is.foldl (attentionStep cfg) (attentionStep cfg st i)).trace = _
        rw [hevs]
        have : (attentionStep cfg st i).trace
            = st.trace ++ [SimEvent.attendEv st.tick i (st.market.prices.getLastD 0)] := by
          unfold attentionStep
          rw [if_pos hc]
        rw [this]
        simp
      · intro e he
        rcases List.mem_cons.1 he with rfl | he2
        · exact ⟨i, rfl⟩
        · rcases hall e he2 with ⟨j, hj⟩
          rw [htick, hmkt] at hj
          exact ⟨j, hj⟩
    · refine ⟨evs, ?_, ?_⟩
      · show (is.foldl (attentionStep cfg) (attentionStep cfg st i)).trace = _
        rw [hevs]
        have : (attentionStep cfg st i).trace = st.trace := by
          unfold attentionStep
          rw [if_neg hc]
        rw [this]
      · intro e he
        rcases hall e he with ⟨j, hj⟩
        rw [htick, hmkt] at hj
        exact ⟨j, hj⟩

/-- The one-day macro fold changes nothing but the trace. -/
theorem macroFold_core (cfg : SimConfig) (price : ℚ) (day : ℕ) (l : List ℕ) :
    ∀ st : SimState,
      ((l.foldl (fun s i =>
        if cfg.macroDays.getD i 0 = day then
          { s with trace := s.trace ++ [.macroEv s.tick i price] }
        else s) st)).core = st.core
      ∧ ((l.foldl (fun s i =>
        if cfg.macroDays.getD i 0 = day then
          { s with trace := s.trace ++ [.macroEv s.tick i price] }
        else s) st)).rngIdx = st.rngIdx := by
  induction l with
  | nil => intro st; exact ⟨rfl, rfl⟩
  | cons i is ih =>
    intro st
    rcases ih (if cfg.macroDays.getD i 0 = day then
        { st with trace := st.trace ++ [.macroEv st.tick i price] } else st) with ⟨h1, h2⟩
    constructor
    · refine h1.trans ?_
      split <;> rfl
    · refine h2.trans ?_
      split <;> rfl

/-- The one-day macro fold appends only macro events, all carrying the tick
of the starting state and the just-cleared price. -/
theorem macroFold_trace (cfg : SimConfig) (price : ℚ) (day : ℕ) (l : List ℕ) :
    ∀ st : SimState, ∃ evs,
      ((l.foldl (fun s i =>
        if cfg.macroDays.getD i 0 = day then
          { s with trace := s.trace ++ [.macroEv s.tick i price] }
        else s) st)).trace = st.trace ++ evs
      ∧ ∀ e ∈ evs, ∃ j, e = SimEvent.macroEv st.tick j price := by
  induction l with
  | nil => intro st; exact ⟨[], by simp, by simp⟩
  | cons i is ih =>
    intro st
    by_cases hc : cfg.macroDays.getD i 0 = day
    · rcases ih ({ st with trace := st.trace ++ [.macroEv st.tick i price] }) with ⟨evs, hevs, hall⟩
      have hcore := (macroFold_core cfg price day is
        ({ st with trace := st.trace ++ [.macroEv st.tick i price] })).1
      refine ⟨SimEvent.macroEv st.tick i price :: evs, ?_, ?_⟩
      · show (is.foldl _ (if cfg.macroDays.getD i 0 = day then _ else st)).trace = _
        rw [if_pos hc, hevs]
        simp
      · intro e he
        rcases List.mem_cons.1 he with rfl | he2
        · exact ⟨i, rfl⟩
        · exact hall e he2
    · rcases ih st with ⟨evs, hevs, hall⟩
      refine ⟨evs, ?_, hall⟩
      show (is.foldl _ (if cfg.macroDays.getD i 0 = day then _ else st)).trace = _
      rw [if_neg hc, hevs]

/-- One sub-step day changes no control field; it adds one skipped-day pad to
the histories unless it is the first day of the run, and appends only macro
and wealth-update events, at the starting tick and the run's cleared price. -/
theorem dayStep_props (cfg : SimConfig) (price ror dividend : ℚ) (first : Bool)
    (day : ℕ) (st : SimState) :
    (dayStep cfg price ror dividend first day st).errorMessage = st.errorMessage
    ∧ (dayStep cfg price ror dividend first day st).endTimeSet = st.endTimeSet
    ∧ (dayStep cfg price ror dividend first day st).closed = st.closed
    ∧ (dayStep cfg price ror dividend first day st).tick = st.tick
    ∧ (dayStep cfg price ror dividend first day st).market.prices.length
        = st.market.prices.length + (if first then 0 else 1)
    ∧ (dayStep cfg price ror dividend first day st).market.dividends.length
        = st.market.dividends.length + (if first then 0 else 1)
    ∧ (dayStep cfg price ror dividend first day st).buySellHistory.length
        = st.buySellHistory.length + (if first then 0 else 1)
    ∧ (dayStep cfg price ror dividend first day st).buySellMacroHistory.length
        = st.buySellMacroHistory.length + (if first then 0 else 1)
    ∧ ∃ evs, (dayStep cfg price ror dividend first day st).trace = st.trace ++ evs
        ∧ ∀ e ∈ evs, (∃ j, e = SimEvent.macroEv st.tick j price)
            ∨ e = SimEvent.wealthEv st.tick price ror dividend := by
  have hcore := (macroFold_core cfg price day (List.range cfg.macroDays.length) st).1
  simp only [SimState.core, Prod.mk.injEq] at hcore
  obtain ⟨hm0, hbs0, hbsm0, herr0, hend0, hcl0, htk0, hdy0⟩ := hcore
  have hm : (macroPhase cfg price day st).market = st.market := hm0
  have hbs : (macroPhase cfg price day st).buySellHistory = st.buySellHistory := hbs0
  have hbsm : (macroPhase cfg price day st).buySellMacroHistory
      = st.buySellMacroHistory := hbsm0
  have herr : (macroPhase cfg price day st).errorMessage = st.errorMessage := herr0
  have hend : (macroPhase cfg price day st).endTimeSet = st.endTimeSet := hend0
  have hcl : (macroPhase cfg price day st).closed = st.closed := hcl0
  have htk : (macroPhase cfg price day st).tick = st.tick := htk0
  rcases macroFold_trace cfg price day (List.range cfg.macroDays.length) st
    with ⟨mevs, hmevs0, hmall⟩
  have hmevs : (macroPhase cfg price day st).trace = st.trace ++ mevs := hmevs0
  cases first with
  | true =>
    refine ⟨herr, hend, hcl, htk, ?_, ?_, ?_, ?_, ?_⟩
    · show (macroPhase cfg price day st).market.prices.length = _
      rw [hm]; simp
    · show (macroPhase cfg price day st).market.dividends.length = _
      rw [hm]; simp
    · show (macroPhase cfg price day st).buySellHistory.length = _
      rw [hbs]; simp
    · show (macroPhase cfg price day st).buySellMacroHistory.length = _
      rw [hbsm]; simp
    · refine ⟨mevs ++ [SimEvent.wealthEv st.tick price ror dividend], ?_, ?_⟩
      · show (macroPhase cfg price day st).trace
            ++ [SimEvent.wealthEv (macroPhase cfg price day st).tick price ror dividend]
          = st.trace ++ (mevs ++ [SimEvent.wealthEv st.tick price ror dividend])
        rw [htk]
        show (macroPhase cfg price day st).trace ++ _ = _
        rw [hmevs]
        simp
      · intro e he
        rcases List.mem_append.1 he with he1 | he2
        · exact Or.inl (hmall e he1)
        · rcases List.mem_singleton.1 he2 with rfl
          exact Or.inr rfl
  | false =>
    refine ⟨herr, hend, hcl, htk, ?_, ?_, ?_, ?_, ?_⟩
    · show (skippedDayPad (macroPhase cfg price day st)).market.prices.length = _
      simp only [skippedDayPad, MarketHist.dummy_run]
      rw [hm]; simp
    · show (skippedDayPad (macroPhase cfg price day st)).market.dividends.length = _
      simp only [skippedDayPad, MarketHist.dummy_run]
      rw [hm]; simp
    · show (skippedDayPad (macroPhase cfg price day st)).buySellHistory.length = _
      simp only [skippedDayPad]
      rw [hbs]; simp
    · show (skippedDayPad (macroPhase cfg price day st)).buySellMacroHistory.length = _
      simp only [skippedDayPad]
      rw [hbsm]; simp
    · refine ⟨mevs ++ [SimEvent.wealthEv st.tick price ror dividend], ?_, ?_⟩
      · show (skippedDayPad (macroPhase cfg price day st)).trace
            ++ [SimEvent.wealthEv (skippedDayPad (macroPhase cfg price day st)).tick
              price ror dividend]
          = st.trace ++ (mevs ++ [SimEvent.wealthEv st.tick price ror dividend])
        show (macroPhase cfg price day st).trace
            ++ [SimEvent.wealthEv (macroPhase cfg price day st).tick price ror dividend] = _
        rw [htk, hmevs]
        simp
      · intro e he
        rcases List.mem_append.1 he with he1 | he2
        · exact Or.inl (hmall e he1)
        · rcases List.mem_singleton.1 he2 with rfl
          exact Or.inr rfl

/-- The sub-step day loop: control fields are preserved, each history grows by
one entry per day except the run's first day, and only macro and
wealth-update events (at the starting tick and the run's cleared price) are
appended. -/
theorem dayLoop_props (cfg : SimConfig) (price ror dividend : ℚ) :
    ∀ (n : ℕ) (first : Bool) (day : ℕ) (st : SimState),
      (dayLoop cfg price ror dividend n first day st).1.errorMessage = st.errorMessage
      ∧ (dayLoop cfg price ror dividend n first day st).1.endTimeSet = st.endTimeSet
      ∧ (dayLoop cfg price ror dividend n first day st).1.closed = st.closed
      ∧ (dayLoop cfg price ror dividend n first day st).1.tick = st.tick
      ∧ (dayLoop cfg price ror dividend n first day st).1.market.prices.length
          = st.market.prices.length + (n - (if first then 1 else 0))
      ∧ (dayLoop cfg price ror dividend n first day st).1.market.dividends.length
          = st.market.dividends.length + (n - (if first then 1 else 0))
      ∧ (dayLoop cfg price ror dividend n first day st).1.buySellHistory.length
          = st.buySellHistory.length + (n - (if first then 1 else 0))
      ∧ (dayLoop cfg price ror dividend n first day st).1.buySellMacroHistory.length
          = st.buySellMacroHistory.length + (n - (if first then 1 else 0))
      ∧ ∃ evs, (dayLoop cfg price ror dividend n first day st).1.trace = st.trace ++ evs
          ∧ ∀ e ∈ evs, (∃ j, e = SimEvent.macroEv st.tick j price)
              ∨ e = SimEvent.wealthEv st.tick price ror dividend := by
  intro n
  induction n with
  | zero =>
    intro first day st
    refine ⟨rfl, rfl, rfl, rfl, by simp [dayLoop], by simp [dayLoop], by simp [dayLoop],
      by simp [dayLoop], [], by simp [dayLoop], by simp⟩
  | succ n ih =>
    intro first day st
    obtain ⟨herr1, hend1, hcl1, htk1, hp1, hd1, hb1, hbm1, evs1, htr1, hall1⟩ :=
      dayStep_props cfg price ror dividend first day st
    obtain ⟨herr2, hend2, hcl2, htk2, hp2, hd2, hb2, hbm2, evs2, htr2, hall2⟩ :=
      ih false (day + 1) (dayStep cfg price ror dividend first day st)
    have hstep : dayLoop cfg price ror dividend (n + 1) first day st
        = dayLoop cfg price ror dividend n false (day + 1)
          (dayStep cfg price ror dividend first day st) := rfl
    rw [hstep]
    refine ⟨herr2.trans herr1, hend2.trans hend1, hcl2.trans hcl1, htk2.trans htk1,
      ?_, ?_, ?_, ?_, evs1 ++ evs2, ?_, ?_⟩
    · rw [hp2, hp1]
      cases first <;> simp <;> omega
    · rw [hd2, hd1]
      cases first <;> simp <;> omega
    · rw [hb2, hb1]
      cases first <;> simp <;> omega
    · rw [hbm2, hbm1]
      cases first <;> simp <;> omega
    · rw [htr2, htr1]
      simp
    · intro e he
      rcases List.mem_append.1 he with he1 | he2
      · exact hall1 e he1
      · rcases hall2 e he2 with ⟨j, hj⟩ | hj
        · rw [htk1] at hj
          exact Or.inl ⟨j, hj⟩
        · rw [htk1] at hj
          exact Or.inr hj

/-- Whether a trace event is an `attend` call. -/
def isAttendEv : SimEvent → Bool
  | .attendEv _ _ _ => true
  | _ => false

/-- Number of `attend` calls recorded in a trace. -/
def countAttends (tr : List SimEvent) : ℕ :=
  (tr.filter isAttendEv).length

/-- Attend counting distributes over trace concatenation. -/
theorem countAttends_append (l1 l2 : List SimEvent) :
    countAttends (l1 ++ l2) = countAttends l1 + countAttends l2 := by
  simp [countAttends, List.filter_append]

/-- A trace segment with no attend events counts zero. -/
theorem countAttends_eq_zero (evs : List SimEvent)
    (h : ∀ e ∈ evs, isAttendEv e = false) : countAttends evs = 0 := by
  simp only [countAttends, List.length_eq_zero]
  exact List.filter_eq_nil.2 (fun e he => by simp [h e he])

/-- A run whose trade call fails stores the failure message verbatim, keeps
the tick counter (no tick is committed), and leaves every history log exactly
as it was when `broker.trade` was called. -/
theorem doRun_failed (cfg : SimConfig) (day : ℕ) (st : SimState) (msg : String)
    (htr : cfg.trades st.tick = .failure msg) :
    ∃ st1, doRun cfg day st = .failed st1
      ∧ st1.errorMessage = some msg
      ∧ st1.endTimeSet = st.endTimeSet
      ∧ st1.closed = st.closed
      ∧ st1.tick = st.tick
      ∧ st1.market = st.market
      ∧ st1.buySellHistory = st.buySellHistory
      ∧ st1.buySellMacroHistory = st.buySellMacroHistory := by
  obtain ⟨hm, hbs, hbsm, herr, hend, hcl, htk, hdy⟩ := attentionPhase_fields cfg st
  have htr2 : cfg.trades (attentionPhase cfg st).tick = .failure msg := by
    rw [htk]; exact htr
  refine ⟨{ attentionPhase cfg st with errorMessage := some msg }, ?_, rfl,
    hend, hcl, htk, hm, hbs, hbsm⟩
  unfold doRun
  rw [htr2]

/-- A run whose trade call succeeds commits exactly one tick: the tick counter
advances by one, each history grows by `1 + (days_per_run - 1)` entries, the
control fields are untouched, and the appended trace events are attention
events at the pre-clear price (the last market price before the trade),
the trade event, and macro/wealth events at the just-cleared price. -/
theorem doRun_ok (cfg : SimConfig) (day : ℕ) (st : SimState)
    (bs : ℚ × ℚ) (ror price dividend : ℚ)
    (htr : cfg.trades st.tick = .ok bs ror price dividend) :
    ∃ st1 day1, doRun cfg day st = .ok st1 day1
      ∧ st1.errorMessage = st.errorMessage
      ∧ st1.endTimeSet = st.endTimeSet
      ∧ st1.closed = st.closed
      ∧ st1.tick = st.tick + 1
      ∧ st1.market.prices.length
          = st.market.prices.length + 1 + (cfg.daysPerRun - 1)
      ∧ st1.market.dividends.length
          = st.market.dividends.length + 1 + (cfg.daysPerRun - 1)
      ∧ st1.buySellHistory.length
          = st.buySellHistory.length + 1 + (cfg.daysPerRun - 1)
      ∧ st1.buySellMacroHistory.length
          = st.buySellMacroHistory.length + 1 + (cfg.daysPerRun - 1)
      ∧ countAttends st1.trace = countAttends (attentionPhase cfg st).trace
      ∧ ∃ evs, st1.trace = st.trace ++ evs
          ∧ ∀ e ∈ evs,
              (∃ j, e = SimEvent.attendEv st.tick j (st.market.prices.getLastD 0))
              ∨ e = SimEvent.tradeEv st.tick price
              ∨ (∃ j, e = SimEvent.macroEv st.tick j price)
              ∨ e = SimEvent.wealthEv st.tick price ror dividend := by
  obtain ⟨hm, hbs, hbsm, herr, hend, hcl, htk, hdy⟩ := attentionPhase_fields cfg st
  rcases attentionFold_trace cfg (List.range cfg.macroDays.length) st
    with ⟨evsA, htrA0, hallA⟩
  have htrA : (attentionPhase cfg st).trace = st.trace ++ evsA := htrA0
  have htr2 : cfg.trades (attentionPhase cfg st).tick = .ok bs ror price dividend := by
    rw [htk]; exact htr
  obtain ⟨herrD, hendD, hclD, htkD, hpD, hdD, hbD, hbmD, evsD, htrD, hallD⟩ :=
    dayLoop_props cfg price ror dividend cfg.daysPerRun true day
      (tradeStep bs price dividend (attentionPhase cfg st))
  have hrun : doRun cfg day st
      = .ok { (dayLoop cfg price ror dividend cfg.daysPerRun true day
            (tradeStep bs price dividend (attentionPhase cfg st))).1 with
          tick := (dayLoop cfg price ror dividend cfg.daysPerRun true day
            (tradeStep bs price dividend (attentionPhase cfg st))).1.tick + 1 }
        (dayLoop cfg price ror dividend cfg.daysPerRun true day
          (tradeStep bs price dividend (attentionPhase cfg st))).2 := by
    unfold doRun
    rw [htr2]
  refine ⟨_, _, hrun, ?_, ?_, ?_, ?_, ?_, ?_, ?_, ?_, ?_,
    evsA ++ ([SimEvent.tradeEv st.tick price] ++ evsD), ?_, ?_⟩
  · show (dayLoop cfg price ror dividend cfg.daysPerRun true day
        (tradeStep bs price dividend (attentionPhase cfg st))).1.errorMessage
      = st.errorMessage
    rw [herrD]
    show (attentionPhase cfg st).errorMessage = st.errorMessage
    exact herr
  · show (dayLoop cfg price ror dividend cfg.daysPerRun true day
        (tradeStep bs price dividend (attentionPhase cfg st))).1.endTimeSet
      = st.endTimeSet
    rw [hendD]
    show (attentionPhase cfg st).endTimeSet = st.endTimeSet
    exact hend
  · show (dayLoop cfg price ror dividend cfg.daysPerRun true day
        (tradeStep bs price dividend (attentionPhase cfg st))).1.closed = st.closed
    rw [hclD]
    show (attentionPhase cfg st).closed = st.closed
    exact hcl
  · show (dayLoop cfg price ror dividend cfg.daysPerRun true day
        (tradeStep bs price dividend (attentionPhase cfg st))).1.tick + 1 = st.tick + 1
    rw [htkD]
    show (attentionPhase cfg st).tick + 1 = st.tick + 1
    rw [htk]
  · show (dayLoop cfg price ror dividend cfg.daysPerRun true day
        (tradeStep bs price dividend (attentionPhase cfg st))).1.market.prices.length = _
    rw [hpD]
    show ((attentionPhase cfg st).market.prices ++ [price]).length + _ = _
    rw [List.length_append, hm]
    simp
  · show (dayLoop cfg price ror dividend cfg.daysPerRun true day
        (tradeStep bs price dividend (attentionPhase cfg st))).1.market.dividends.length = _
    rw [hdD]
    show ((attentionPhase cfg st).market.dividends ++ [dividend]).length + _ = _
    rw [List.length_append, hm]
    simp
  · show (dayLoop cfg price ror dividend cfg.daysPerRun true day
        (tradeStep bs price dividend (attentionPhase cfg st))).1.buySellHistory.length = _
    rw [hbD]
    show ((attentionPhase cfg st).buySellHistory ++ [bs]).length + _ = _
    rw [List.length_append, hbs]
    simp
  · show (dayLoop cfg price ror dividend cfg.daysPerRun true day
        (tradeStep bs price dividend (attentionPhase cfg st))).1.buySellMacroHistory.length
      = _
    rw [hbmD]
    show ((attentionPhase cfg st).buySellMacroHistory ++ [bs]).length + _ = _
    rw [List.length_append, hbsm]
    simp
  · show countAttends (dayLoop cfg price ror dividend cfg.daysPerRun true day
        (tradeStep bs price dividend (attentionPhase cfg st))).1.trace = _
    rw [htrD]
    show countAttends ((attentionPhase cfg st).trace
      ++ [SimEvent.tradeEv (attentionPhase cfg st).tick price] ++ evsD) = _
    rw [countAttends_append, countAttends_append]
    rw [countAttends_eq_zero [SimEvent.tradeEv (attentionPhase cfg st).tick price]
      (by intro e he; rcases List.mem_singleton.1 he with rfl; rfl)]
    rw [countAttends_eq_zero evsD ?hzero]
    · omega
    case hzero =>
      intro e he
      rcases hallD e he with ⟨j, hj⟩ | hj
      · rw [hj]; rfl
      · rw [hj]; rfl
  · show (dayLoop cfg price ror dividend cfg.daysPerRun true day
        (tradeStep bs price dividend (attentionPhase cfg st))).1.trace = _
    rw [htrD]
    show (attentionPhase cfg st).trace
        ++ [SimEvent.tradeEv (attentionPhase cfg st).tick price] ++ evsD = _
    rw [htrA, htk]
    simp
  · intro e he
    rcases List.mem_append.1 he with he1 | he2
    · rcases hallA e he1 with ⟨j, hj⟩
      exact Or.inl ⟨j, hj⟩
    · rcases List.mem_append.1 he2 with he3 | he4
      · rcases List.mem_singleton.1 he3 with rfl
        exact Or.inr (Or.inl rfl)
      · rcases hallD e he4 with ⟨j, hj⟩ | hj
        · refine Or.inr (Or.inr (Or.inl ⟨j, ?_⟩))
          rw [hj]
          show SimEvent.macroEv (tradeStep bs price dividend (attentionPhase cfg st)).tick
              j price = _
          rw [show (tradeStep bs price dividend (attentionPhase cfg st)).tick
            = (attentionPhase cfg st).tick from rfl, htk]
        · refine Or.inr (Or.inr (Or.inr ?_))
          rw [hj]
          show SimEvent.wealthEv (tradeStep bs price dividend (attentionPhase cfg st)).tick
              price ror dividend = _
          rw [show (tradeStep bs price dividend (attentionPhase cfg st)).tick
            = (attentionPhase cfg st).tick from rfl, htk]

/-- A trade result is ok exactly when it is an `ok` tuple. -/
theorem isOk_iff (t : TradeResult) :
    t.isOk = true ↔ ∃ bs ror price dividend, t = TradeResult.ok bs ror price dividend := by
  cases t <;> simp [TradeResult.isOk]

/-- A block of `n` runs whose trades all succeed commits exactly `n` ticks and
grows each market history by `n` per-run increments. -/
theorem doRuns_ok (cfg : SimConfig) :
    ∀ (n day : ℕ) (st : SimState),
      (∀ j, st.tick ≤ j → j < st.tick + n → (cfg.trades j).isOk = true) →
      ∃ st1 day1, doRuns cfg n day st = .ok st1 day1
        ∧ st1.errorMessage = st.errorMessage
        ∧ st1.endTimeSet = st.endTimeSet
        ∧ st1.closed = st.closed
        ∧ st1.tick = st.tick + n
        ∧ st1.market.prices.length
            = st.market.prices.length + n * (1 + (cfg.daysPerRun - 1))
        ∧ st1.market.dividends.length
            = st.market.dividends.length + n * (1 + (cfg.daysPerRun - 1)) := by
  intro n
  induction n with
  | zero =>
    intro day st _
    exact ⟨st, day, rfl, rfl, rfl, rfl, by omega, by simp, by simp⟩
  | succ n ih =>
    intro day st hok
    have h0 : (cfg.trades st.tick).isOk = true :=
      hok st.tick (le_refl _) (by omega)
    rcases (isOk_iff _).1 h0 with ⟨bs, ror, price, dividend, htr⟩
    obtain ⟨st1, day1, hrun, herr1, hend1, hcl1, htk1, hp1, hd1, hb1, hbm1, _⟩ :=
      doRun_ok cfg day st bs ror price dividend htr
    obtain ⟨st2, day2, hruns, herr2, hend2, hcl2, htk2, hp2, hd2⟩ :=
      ih day1 st1 (fun j hj1 hj2 => hok j (by omega) (by omega))
    refine ⟨st2, day2, ?_, herr2.trans herr1, hend2.trans hend1, hcl2.trans hcl1,
      ?_, ?_, ?_⟩
    · show doRuns cfg (n + 1) day st = .ok st2 day2
      unfold doRuns
      rw [hrun]
      exact hruns
    · omega
    · rw [hp2, hp1]
      rw [Nat.succ_mul]
      omega
    · rw [hd2, hd1]
      rw [Nat.succ_mul]
      omega

/-- A block of runs whose first trade failure occurs at absolute tick `k`
stops there: the failure message is stored verbatim, exactly `k - tick`
earlier ticks were committed, and the histories are those accumulated up to
the failing trade call. -/
theorem doRuns_failed (cfg : SimConfig) :
    ∀ (n day : ℕ) (st : SimState) (k : ℕ) (msg : String),
      st.tick ≤ k → k < st.tick + n →
      cfg.trades k = .failure msg →
      (∀ j, st.tick ≤ j → j < k → (cfg.trades j).isOk = true) →
      ∃ st1, doRuns cfg n day st = .failed st1
        ∧ st1.errorMessage = some msg
        ∧ st1.endTimeSet = st.endTimeSet
        ∧ st1.closed = st.closed
        ∧ st1.tick = k
        ∧ st1.market.prices.length
            = st.market.prices.length + (k - st.tick) * (1 + (cfg.daysPerRun - 1))
        ∧ st1.market.dividends.length
            = st.market.dividends.length + (k - st.tick) * (1 + (cfg.daysPerRun - 1)) := by
  intro n
  induction n with
  | zero =>
    intro day st k msg hk1 hk2 _ _
    omega
  | succ n ih =>
    intro day st k msg hk1 hk2 hfail hok
    by_cases hkt : k = st.tick
    · subst hkt
      obtain ⟨st1, hrun, herr1, hend1, hcl1, htk1, hm1, hb1, hbm1⟩ :=
        doRun_failed cfg day st msg hfail
      refine ⟨st1, ?_, herr1, hend1, hcl1, by omega, ?_, ?_⟩
      · show doRuns cfg (n + 1) day st = .failed st1
        unfold doRuns
        rw [hrun]
      · rw [hm1]; simp
      · rw [hm1]; simp
    · have h0 : (cfg.trades st.tick).isOk = true :=
        hok st.tick (le_refl _) (by omega)
      rcases (isOk_iff _).1 h0 with ⟨bs, ror, price, dividend, htr⟩
      obtain ⟨st1, day1, hrun, herr1, hend1, hcl1, htk1, hp1, hd1, hb1, hbm1, _⟩ :=
        doRun_ok cfg day st bs ror price dividend htr
      obtain ⟨st2, hruns, herr2, hend2, hcl2, htk2, hp2, hd2⟩ :=
        ih day1 st1 k msg (by omega) (by omega) hfail
          (fun j hj1 hj2 => hok j (by omega) hj2)
      refine ⟨st2, ?_, herr2, hend2.trans hend1, hcl2.trans hcl1, htk2, ?_, ?_⟩
      · show doRuns cfg (n + 1) day st = .failed st2
        unfold doRuns
        rw [hrun]
        exact hruns
      · rw [hp2, hp1]
        have hsplit : k - st.tick = (k - st1.tick) + 1 := by omega
        rw [hsplit, Nat.succ_mul]
        omega
      · rw [hd2, hd1]
        have hsplit : k - st.tick = (k - st1.tick) + 1 := by omega
        rw [hsplit, Nat.succ_mul]
        omega

/-- Quarters loop under a first trade failure at absolute tick `k`: the loop
stops at the failing quarter, stores the message, sets the end time, skips
`broker.close()`, and keeps the partial histories. -/
theorem doQuarters_failed (cfg : SimConfig) :
    ∀ (q : ℕ) (st : SimState) (k : ℕ) (msg : String),
      st.tick ≤ k → k < st.tick + q * cfg.runsPerQuarter →
      cfg.trades k = .failure msg →
      (∀ j, st.tick ≤ j → j < k → (cfg.trades j).isOk = true) →
      (doQuarters cfg q st).errorMessage = some msg
      ∧ (doQuarters cfg q st).endTimeSet = true
      ∧ (doQuarters cfg q st).closed = st.closed
      ∧ (doQuarters cfg q st).tick = k
      ∧ (doQuarters cfg q st).market.prices.length
          = st.market.prices.length + (k - st.tick) * (1 + (cfg.daysPerRun - 1))
      ∧ (doQuarters cfg q st).market.dividends.length
          = st.market.dividends.length + (k - st.tick) * (1 + (cfg.daysPerRun - 1)) := by
  intro q
  induction q with
  | zero =>
    intro st k msg hk1 hk2 _ _
    omega
  | succ q ih =>
    intro st k msg hk1 hk2 hfail hok
    by_cases hin : k < st.tick + cfg.runsPerQuarter
    · obtain ⟨st1, hruns, herr1, hend1, hcl1, htk1, hp1, hd1⟩ :=
        doRuns_failed cfg cfg.runsPerQuarter 0 st k msg hk1 hin hfail hok
      have hq : doQuarters cfg (q + 1) st = { st1 with endTimeSet := true } := by
        unfold doQuarters
        rw [hruns]
      rw [hq]
      exact ⟨herr1, rfl, hcl1, htk1, hp1, hd1⟩
    · obtain ⟨st1, day1, hruns, herr1, hend1, hcl1, htk1, hp1, hd1⟩ :=
        doRuns_ok cfg cfg.runsPerQuarter 0 st
          (fun j hj1 hj2 => hok j hj1 (by omega))
      have hq : doQuarters cfg (q + 1) st = doQuarters cfg q st1 := by
        show (match doRuns cfg cfg.runsPerQuarter 0 st with
          | RunOutcome.ok st1 _ => doQuarters cfg q st1
          | RunOutcome.failed st1 => { st1 with endTimeSet := true })
            = doQuarters cfg q st1
        rw [hruns]
      obtain ⟨h1, h2, h3, h4, h5, h6⟩ :=
        ih st1 k msg (by omega) (by rw [htk1]; rw [Nat.succ_mul] at hk2; omega) hfail
          (fun j hj1 hj2 => hok j (by omega) hj2)
      rw [hq]
      refine ⟨h1, h2, h3.trans hcl1, h4, ?_, ?_⟩
      · rw [h5, hp1]
        have hsplit : k - st.tick
            = cfg.runsPerQuarter + (k - st1.tick) := by omega
        rw [hsplit, Nat.add_mul]
        omega
      · rw [h6, hd1]
        have hsplit : k - st.tick
            = cfg.runsPerQuarter + (k - st1.tick) := by omega
        rw [hsplit, Nat.add_mul]
        omega

/-- C3: if the `k`-th `broker.trade` call raises `MarketFailureError` (all
earlier calls succeeding), `AttentionSimulation.simulate` stops stepping at
that tick (no further tick in that run or any later quarter), stores the
exception message verbatim in `error_message`, sets the end time, returns
without closing the broker, and keeps the price/dividend history accumulated
up to the failing tick (`1 + k * days_per_run` entries). -/
theorem market_failure_partial_result (cfg : SimConfig) (k : ℕ) (msg : String)
    (hfail : cfg.trades k = .failure msg)
    (hok : ∀ j, j < k → (cfg.trades j).isOk = true)
    (hk : k < cfg.quarters * cfg.runsPerQuarter)
    (hd : 1 ≤ cfg.daysPerRun) :
    (simulate cfg).errorMessage = some msg
    ∧ (simulate cfg).endTimeSet = true
    ∧ (simulate cfg).closed = false
    ∧ (simulate cfg).tick = k
    ∧ (simulate cfg).market.prices.length = 1 + k * cfg.daysPerRun
    ∧ (simulate cfg).market.dividends.length = 1 + k * cfg.daysPerRun := by
  obtain ⟨h1, h2, h3, h4, h5, h6⟩ :=
    doQuarters_failed cfg cfg.quarters SimState.init k msg (by simp [SimState.init])
      (by simp [SimState.init]; omega) hfail (fun j _ hj => hok j hj)
  have hD : 1 + (cfg.daysPerRun - 1) = cfg.daysPerRun := by omega
  rw [hD] at h5 h6
  refine ⟨h1, h2, h3, h4, ?_, ?_⟩
  · rw [show (simulate cfg).market.prices.length
      = (doQuarters cfg cfg.quarters SimState.init).market.prices.length from rfl, h5]
    simp [SimState.init, MockMarket.init]
  · rw [show (simulate cfg).market.dividends.length
      = (doQuarters cfg cfg.quarters SimState.init).market.dividends.length from rfl, h6]
    simp [SimState.init, MockMarket.init]

/-- Failure message used by the concrete witnesses. -/
def msgStop : String := "market failure"

/-- Concrete configuration for the market-failure witness: one agent, one
quarter of two runs, one day per run; the second trade call fails. -/
def cfgC3 : SimConfig :=
  ⟨[0], 1, 2, 1, 1 / 2, fun _ => 0,
    fun n => if n = 0 then .ok (0, 0) 0 101 1 else .failure msgStop⟩

/-- Witness for `market_failure_partial_result` at the concrete
configuration: the failure on trade 1 of 2 leaves a partial history. -/
theorem market_failure_partial_result_witness :
    (cfgC3.trades 1 = .failure msgStop
      ∧ (∀ j, j < 1 → (cfgC3.trades j).isOk = true)
      ∧ 1 < cfgC3.quarters * cfgC3.runsPerQuarter
      ∧ 1 ≤ cfgC3.daysPerRun)
    ∧ ((simulate cfgC3).errorMessage = some msgStop
      ∧ (simulate cfgC3).endTimeSet = true
      ∧ (simulate cfgC3).closed = false
      ∧ (simulate cfgC3).tick = 1
      ∧ (simulate cfgC3).market.prices.length = 1 + 1 * cfgC3.daysPerRun
      ∧ (simulate cfgC3).market.dividends.length = 1 + 1 * cfgC3.daysPerRun) :=
  ⟨⟨rfl, by decide, by decide, by decide⟩,
    market_failure_partial_result cfgC3 1 msgStop rfl (by decide) (by decide) (by decide)⟩

/-- C4: within a run of `AttentionSimulation.simulate` whose trade call clears
at `price`, every attention order is computed at the pre-clear price (the
last element of `market.prices` before `broker.trade` is called), while every
macro order of the same run is computed at the just-cleared `price` returned
by that trade call. -/
theorem attend_preclear_macro_postclear (cfg : SimConfig) (day : ℕ) (st : SimState)
    (bs : ℚ × ℚ) (ror price dividend : ℚ)
    (htr : cfg.trades st.tick = .ok bs ror price dividend) :
    ∃ st1 day1, doRun cfg day st = .ok st1 day1
      ∧ ∃ evs, st1.trace = st.trace ++ evs
        ∧ (∀ e ∈ evs, ∀ t j p, e = SimEvent.attendEv t j p →
            p = st.market.prices.getLastD 0)
        ∧ (∀ e ∈ evs, ∀ t j p, e = SimEvent.macroEv t j p → p = price) := by
  obtain ⟨st1, day1, hrun, _, _, _, _, _, _, _, _, _, evs, htrace, hall⟩ :=
    doRun_ok cfg day st bs ror price dividend htr
  refine ⟨st1, day1, hrun, evs, htrace, ?_, ?_⟩
  · intro e he t j p hep
    rcases hall e he with ⟨j2, hj⟩ | hj | ⟨j2, hj⟩ | hj
    · rw [hep] at hj
      have := SimEvent.attendEv.inj hj
      exact this.2.2
    · rw [hep] at hj
      exact absurd hj (by simp)
    · rw [hep] at hj
      exact absurd hj (by simp)
    · rw [hep] at hj
      exact absurd hj (by simp)
  · intro e he t j p hep
    rcases hall e he with ⟨j2, hj⟩ | hj | ⟨j2, hj⟩ | hj
    · rw [hep] at hj
      exact absurd hj (by simp)
    · rw [hep] at hj
      exact absurd hj (by simp)
    · rw [hep] at hj
      have := SimEvent.macroEv.inj hj
      exact this.2.2
    · rw [hep] at hj
      exact absurd hj (by simp)

/-- Witness for `attend_preclear_macro_postclear`: the first run of the
concrete configuration clears at price 101. -/
theorem attend_preclear_macro_postclear_witness :
    cfgC3.trades SimState.init.tick = .ok (0, 0) 0 101 1
    ∧ (∃ st1 day1, doRun cfgC3 0 SimState.init = .ok st1 day1
        ∧ ∃ evs, st1.trace = SimState.init.trace ++ evs
          ∧ (∀ e ∈ evs, ∀ t j p, e = SimEvent.attendEv t j p →
              p = SimState.init.market.prices.getLastD 0)
          ∧ (∀ e ∈ evs, ∀ t j p, e = SimEvent.macroEv t j p → p = 101)) :=
  ⟨rfl, attend_preclear_macro_postclear cfgC3 0 SimState.init (0, 0) 0 101 1 rfl⟩

/-- With attention rate 0 and draws in `[0, 1)`, no attention draw succeeds:
the attention fold leaves the trace untouched. -/
theorem attentionFold_rate_zero (cfg : SimConfig)
    (hrate : cfg.attentionRate = 0) (hrng : ∀ n, 0 ≤ cfg.rng n) (l : List ℕ) :
    ∀ st : SimState, (l.foldl (attentionStep cfg) st).trace = st.trace := by
  induction l with
  | nil => intro st; rfl
  | cons i is ih =>
    intro st
    have hstep : (attentionStep cfg st i).trace = st.trace := by
      unfold attentionStep
      rw [if_neg]
      rw [hrate]
      exact not_lt.2 (hrng st.rngIdx)
    show (is.foldl (attentionStep cfg) (attentionStep cfg st i)).trace = st.trace
    rw [ih, hstep]

/-- With attention rate 1 and draws in `[0, 1)`, every attention draw
succeeds: the fold appends one attend event per agent. -/
theorem attentionFold_rate_one (cfg : SimConfig)
    (hrate : cfg.attentionRate = 1) (hrng : ∀ n, cfg.rng n < 1) (l : List ℕ) :
    ∀ st : SimState,
      countAttends (l.foldl (attentionStep cfg) st).trace
        = countAttends st.trace + l.length := by
  induction l with
  | nil => intro st; simp
  | cons i is ih =>
    intro st
    have hstep : (attentionStep cfg st i).trace
        = st.trace ++ [SimEvent.attendEv st.tick i (st.market.prices.getLastD 0)] := by
      unfold attentionStep
      rw [if_pos]
      rw [hrate]
      exact hrng st.rngIdx
    show countAttends (is.foldl (attentionStep cfg) (attentionStep cfg st i)).trace = _
    rw [ih, hstep, countAttends_append]
    have : countAttends [SimEvent.attendEv st.tick i (st.market.prices.getLastD 0)]
        = 1 := rfl
    rw [this]
    simp only [List.length_cons]
    omega

/-- Runs whose trades all succeed each add exactly the per-run attend count. -/
theorem doRuns_count (cfg : SimConfig) (c : ℕ)
    (hA : ∀ st : SimState,
      countAttends (attentionPhase cfg st).trace = countAttends st.trace + c)
    (hok : ∀ n, (cfg.trades n).isOk = true) :
    ∀ (n day : ℕ) (st : SimState),
      ∃ st1 day1, doRuns cfg n day st = .ok st1 day1
        ∧ countAttends st1.trace = countAttends st.trace + n * c := by
  intro n
  induction n with
  | zero =>
    intro day st
    exact ⟨st, day, rfl, by simp⟩
  | succ n ih =>
    intro day st
    rcases (isOk_iff _).1 (hok st.tick) with ⟨bs, ror, price, dividend, htr⟩
    obtain ⟨st1, day1, hrun, _, _, _, _, _, _, _, _, hcnt1, _⟩ :=
      doRun_ok cfg day st bs ror price dividend htr
    obtain ⟨st2, day2, hruns, hcnt2⟩ := ih day1 st1
    refine ⟨st2, day2, ?_, ?_⟩
    · show doRuns cfg (n + 1) day st = .ok st2 day2
      unfold doRuns
      rw [hrun]
      exact hruns
    · rw [hcnt2, hcnt1, hA st, Nat.succ_mul]
      omega

/-- Over all-successful trades, the whole quarters loop performs exactly
`quarters * runsPerQuarter` runs worth of attend calls. -/
theorem doQuarters_count (cfg : SimConfig) (c : ℕ)
    (hA : ∀ st : SimState,
      countAttends (attentionPhase cfg st).trace = countAttends st.trace + c)
    (hok : ∀ n, (cfg.trades n).isOk = true) :
    ∀ (q : ℕ) (st : SimState),
      countAttends (doQuarters cfg q st).trace
        = countAttends st.trace + q * (cfg.runsPerQuarter * c) := by
  intro q
  induction q with
  | zero => intro st; simp [doQuarters]
  | succ q ih =>
    intro st
    obtain ⟨st1, day1, hruns, hcnt1⟩ := doRuns_count cfg c hA hok cfg.runsPerQuarter 0 st
    have hq : doQuarters cfg (q + 1) st = doQuarters cfg q st1 := by
      show (match doRuns cfg cfg.runsPerQuarter 0 st with
        | RunOutcome.ok st1 _ => doQuarters cfg q st1
        | RunOutcome.failed st1 => { st1 with endTimeSet := true })
          = doQuarters cfg q st1
      rw [hruns]
    rw [hq, ih st1, hcnt1, Nat.succ_mul]
    omega

/-- C8: with attention rate 0, `pop.attend` is never called in any tick; with
attention rate 1, it is called once per agent in every run (the per-agent
Bernoulli test is `rng.random() < attention_rate` with draws uniform in
`[0, 1)`). -/
theorem attention_rate_boundary (cfg : SimConfig)
    (hrng : ∀ n, 0 ≤ cfg.rng n ∧ cfg.rng n < 1)
    (hok : ∀ n, (cfg.trades n).isOk = true) :
    (cfg.attentionRate = 0 → countAttends (simulate cfg).trace = 0)
    ∧ (cfg.attentionRate = 1 →
        countAttends (simulate cfg).trace
          = cfg.quarters * (cfg.runsPerQuarter * cfg.macroDays.length)) := by
  constructor
  · intro hrate
    have hA : ∀ st : SimState,
        countAttends (attentionPhase cfg st).trace = countAttends st.trace + 0 := by
      intro st
      have := attentionFold_rate_zero cfg hrate (fun n => (hrng n).1)
        (List.range cfg.macroDays.length) st
      show countAttends (List.foldl (attentionStep cfg) st
        (List.range cfg.macroDays.length)).trace = _
      rw [this]
      omega
    have h := doQuarters_count cfg 0 hA hok cfg.quarters SimState.init
    show countAttends (doQuarters cfg cfg.quarters SimState.init).trace = 0
    rw [h]
    simp [SimState.init, countAttends]
  · intro hrate
    have hA : ∀ st : SimState,
        countAttends (attentionPhase cfg st).trace
          = countAttends st.trace + cfg.macroDays.length := by
      intro st
      have := attentionFold_rate_one cfg hrate (fun n => (hrng n).2)
        (List.range cfg.macroDays.length) st
      show countAttends (List.foldl (attentionStep cfg) st
        (List.range cfg.macroDays.length)).trace = _
      rw [this]
      simp
    have h := doQuarters_count cfg cfg.macroDays.length hA hok cfg.quarters SimState.init
    show countAttends (doQuarters cfg cfg.quarters SimState.init).trace = _
    rw [h]
    simp [SimState.init, countAttends]

/-- Concrete configuration for the attention-boundary witness: rate 0, all
trades succeed. -/
def cfgC8 : SimConfig :=
  ⟨[0], 1, 2, 1, 0, fun _ => 0, fun _ => .ok (0, 0) 0 101 1⟩

/-- Witness for `attention_rate_boundary` at the concrete rate-0
configuration. -/
theorem attention_rate_boundary_witness :
    ((∀ n, 0 ≤ cfgC8.rng n ∧ cfgC8.rng n < 1)
      ∧ (∀ n, (cfgC8.trades n).isOk = true))
    ∧ ((cfgC8.attentionRate = 0 → countAttends (simulate cfgC8).trace = 0)
      ∧ (cfgC8.attentionRate = 1 →
          countAttends (simulate cfgC8).trace
            = cfgC8.quarters * (cfgC8.runsPerQuarter * cfgC8.macroDays.length))) :=
  ⟨⟨fun n => ⟨le_refl 0, by norm_num [cfgC8]⟩, fun n => rfl⟩,
    attention_rate_boundary cfgC8
      (fun n => ⟨le_refl 0, by norm_num [cfgC8]⟩) (fun n => rfl)⟩
